import Mathlib

/-!
# Endecrypt: a shallow embedding of the core codecs, with verification

This file embeds the core of the Endecrypt repository in Lean 4 and proves
properties of the embedded code:

* `src/steganography/lsb-encoder.js` — the LSB steganographic codec
  (`LSBEncoder.hasCapacity`, `getMaxCapacity`, `hide`, `reveal`);
* `src/file-handling/chunked-reader.js` — the fixed-size chunk reader
  (`CHUNK_SIZE`, `ChunkedFileReader`);
* `src/crypto/encryptor.js` — metadata serialization and container assembly
  (`Encryptor.serializeMetadata`, `Encryptor.buildEncryptedFile`,
  `Encryptor.prepareKey`), and the per-chunk encryption loop of the
  `handleEncryption` orchestration;
* the decryptor module — container parsing (`Decryptor.parseEncryptedFile`)
  and key preparation (`Decryptor.prepareKey`);
* the key manager module — `KeyManager.deriveKey`.

Conventions of the embedding:

* Byte buffers (`Uint8Array`, `ArrayBuffer`, `Blob` contents) are `List Nat`,
  each element a byte value.  JavaScript strings are `List Nat` of Unicode
  scalar values.  Machine arithmetic that matters (32-bit length fields,
  bitwise ops on 8-bit samples) is made explicit with `% 2 ^ w` / div-mod
  arithmetic on `Nat`.
* The AES-GCM / PBKDF2 primitives live in the browser host (WebCrypto), not
  in the repository; calls to them are modelled by records of the exact
  arguments the code passes (`SealedChunk`, `DerivedKeyParams`).  All of the
  repository's own logic — framing, bit addressing, validation, chunk and
  nonce bookkeeping — is embedded directly.
* JavaScript `throw` is modelled by `Except String`, carrying the thrown
  message.
-/

/-! ## Byte and bit utilities

The JavaScript code uses `DataView.setUint32`/`getUint32` (big- and
little-endian), per-byte MSB-first bit extraction `(byte >> (7 - k)) & 1`,
and byte reassembly `currentByte = (currentByte << 1) | bit`.  These are the
corresponding pure functions.
-/

/-- The four big-endian bytes of `n` (as written by
`DataView.setUint32(0, n)` with the default big-endian flag); `setUint32`
stores `n` modulo `2 ^ 32`. -/
def u32be (n : Nat) : List Nat :=
  [n / 16777216 % 256, n / 65536 % 256, n / 256 % 256, n % 256]

/-- The four little-endian bytes of `n` (as written by
`DataView.setUint32(off, n, true)`). -/
def u32le (n : Nat) : List Nat :=
  [n % 256, n / 256 % 256, n / 65536 % 256, n / 16777216 % 256]

/-- Big-endian 32-bit read of a 4-byte buffer (`DataView.getUint32(0)`).
Only ever applied to buffers of length exactly 4. -/
def beU32 : List Nat → Nat
  | [b0, b1, b2, b3] => ((b0 * 256 + b1) * 256 + b2) * 256 + b3
  | _ => 0

/-- Little-endian 32-bit read of the first four bytes
(`DataView.getUint32(0, true)`). -/
def readU32LE : List Nat → Nat
  | b0 :: b1 :: b2 :: b3 :: _ => b0 + 256 * b1 + 65536 * b2 + 16777216 * b3
  | _ => 0

/-- The eight bits of a byte, most significant first: position `k` holds
`(b >> (7 - k)) & 1`, exactly the bit the LSB encoder extracts. -/
def byteBits (b : Nat) : List Nat :=
  [b / 128 % 2, b / 64 % 2, b / 32 % 2, b / 16 % 2, b / 8 % 2, b / 4 % 2, b / 2 % 2, b % 2]

/-- The continuous MSB-first bitstream of a byte buffer: the order in which
`hide` walks `fullData` with its `dataIndex` / `bitIndex` cursor pair. -/
def bitsOfBytes (bytes : List Nat) : List Nat :=
  bytes.flatMap byteBits

/-- Reassemble a bitstream into bytes, eight bits per byte MSB-first, exactly
as `reveal` folds `currentByte = (currentByte << 1) | bit` and emits a byte
every eighth bit.  A trailing group of fewer than eight bits is discarded,
matching the loop never flushing a partial `currentByte`. -/
def bytesFromBits : List Nat → List Nat
  | b0 :: b1 :: b2 :: b3 :: b4 :: b5 :: b6 :: b7 :: rest =>
      (((((((b0 * 2 + b1) * 2 + b2) * 2 + b3) * 2 + b4) * 2 + b5) * 2 + b6) * 2 + b7)
        :: bytesFromBits rest
  | _ => []

/-- Right-pad a buffer with zero bytes to length `n`: a `Uint8Array(n)` is
zero-initialized, so positions never written stay `0`. -/
def padTo (n : Nat) (xs : List Nat) : List Nat :=
  xs ++ List.replicate (n - xs.length) 0

/-! ## `src/steganography/lsb-encoder.js` — the LSB codec

An `ImageData.data` buffer for a `W × H` image is `4 * W * H` samples in
R, G, B, A order.  The codec touches the least significant bit of the three
color channels of each pixel in raster order and never the alpha channel.
-/

namespace LSBEncoder

/-- `getMaxCapacity`: `Math.floor(((totalPixels * 3) - 32) / 8)`.  JavaScript
computes this in floating point and `Math.floor` floors, so for the tiny
covers where `totalPixels * 3 < 32` the result is negative; `Int` division
by the positive constant 8 is flooring division and reproduces that. -/
def getMaxCapacity (width height : Nat) : Int :=
  (((width * height : Nat) : Int) * 3 - 32) / 8

/-- `hasCapacity`: `dataSizeInBytes <= maxBytes`. -/
def hasCapacity (width height dataSizeInBytes : Nat) : Bool :=
  (dataSizeInBytes : Int) ≤ getMaxCapacity width height

/-- `pixels[i+j] = (pixels[i+j] & ~1) | bit`: clear the least significant bit
of a sample and install `bit` (which is always `0` or `1`). -/
def writeLsb (v bit : Nat) : Nat := v / 2 * 2 + bit

/-- The pixel-mutation loop of `hide`: walk the sample buffer four samples
(one pixel) at a time, installing the next three bits of the remaining
bitstream into the R, G, B samples and leaving A untouched, until the
bitstream is exhausted (`dataIndex >= fullData.length` breaks out and the
remaining samples are unchanged).  The trailing ragged cases (a buffer whose
length is not a multiple of four, which never occurs for an `ImageData`)
mirror JavaScript: reads of out-of-range samples see `undefined` and writes
to out-of-range indices of a typed array are discarded. -/
def hideLoop : List Nat → List Nat → List Nat
  | px, [] => px
  | [], _ :: _ => []
  | [r], b0 :: _ => [writeLsb r b0]
  | [r, g], [b0] => [writeLsb r b0, g]
  | [r, g], b0 :: b1 :: _ => [writeLsb r b0, writeLsb g b1]
  | [r, g, b], [b0] => [writeLsb r b0, g, b]
  | [r, g, b], [b0, b1] => [writeLsb r b0, writeLsb g b1, b]
  | [r, g, b], b0 :: b1 :: b2 :: _ => [writeLsb r b0, writeLsb g b1, writeLsb b b2]
  | r :: g :: b :: a :: rest, [b0] => writeLsb r b0 :: g :: b :: a :: rest
  | r :: g :: b :: a :: rest, [b0, b1] => writeLsb r b0 :: writeLsb g b1 :: b :: a :: rest
  | r :: g :: b :: a :: rest, b0 :: b1 :: b2 :: bits =>
      writeLsb r b0 :: writeLsb g b1 :: writeLsb b b2 :: a :: hideLoop rest bits

/-- The full bitstream `hide` writes: the 32-bit big-endian length header of
the payload (`new DataView(lengthHeader.buffer).setUint32(0, secretData.length)`)
followed by the payload bytes, MSB first within each byte. -/
def hideBitstream (secretData : List Nat) : List Nat :=
  bitsOfBytes (u32be secretData.length ++ secretData)

/-- `hide`: fail before touching any pixel if the payload exceeds capacity,
otherwise write the header-plus-payload bitstream into the sample LSBs.
`width`/`height` are the decoded cover image's dimensions and `pixels` its
`ImageData.data` samples. -/
def hide (width height : Nat) (pixels secretData : List Nat) : Except String (List Nat) :=
  if ¬ hasCapacity width height secretData.length then
    .error "File is too large for this cover image."
  else
    .ok (hideLoop pixels (hideBitstream secretData))

/-- The state of the cover sample buffer after `hide` returns or throws: the
capacity check precedes `getImageData`, so on failure no sample was ever
read or written and the buffer is exactly the input. -/
def hideFinalPixels (width height : Nat) (pixels secretData : List Nat) : List Nat :=
  if ¬ hasCapacity width height secretData.length then pixels
  else hideLoop pixels (hideBitstream secretData)

/-- The LSB bitstream `reveal` traverses: for each pixel (four samples) the
low bits of the R, G, B samples, in raster order.  The ragged cases mirror
`pixels[i + j] & 1` evaluating to `0` when `i + j` is out of range
(`undefined & 1 === 0`). -/
def lsbBits : List Nat → List Nat
  | r :: g :: b :: _ :: rest => r % 2 :: g % 2 :: b % 2 :: lsbBits rest
  | [r] => [r % 2, 0, 0]
  | [r, g] => [r % 2, g % 2, 0]
  | [r, g, b] => [r % 2, g % 2, b % 2]
  | [] => []

/-- The declared length `reveal` recovers in its first pass: the first 32
stream bits packed into `headerBytes` (a zero-initialized `Uint8Array(4)`,
so if the stream ends early the unfilled bytes — including a partially
accumulated byte, which is never flushed — stay zero) read back as a
big-endian 32-bit integer. -/
def declaredLength (pixels : List Nat) : Nat :=
  beU32 (padTo 4 (bytesFromBits ((lsbBits pixels).take 32)))

/-- `reveal`: recover the declared length from the first 32 stream bits,
apply the sanity check `dataLength <= 0 || dataLength > pixels.length * 3 / 8`
(the comparison is exact in floating point, so it is the rational comparison
`8 * L > 3 * pixels.length`), then reassemble the payload from the bits that
follow the header in the same continuous stream.  The output buffer
`new Uint8Array(dataLength)` is zero-initialized and the reading loop stops
when the stream runs out, so bytes past the end of the stream remain zero. -/
def reveal (pixels : List Nat) : Except String (List Nat) :=
  let dataLength := declaredLength pixels
  if dataLength = 0 ∨ 3 * pixels.length < 8 * dataLength then
    .error "No valid hidden data found or file corrupted."
  else
    .ok (padTo dataLength ((bytesFromBits ((lsbBits pixels).drop 32)).take dataLength))

end LSBEncoder

/-! ## `src/file-handling/chunked-reader.js` — the chunk reader -/

/-- `CHUNK_SIZE = 10 * 1024 * 1024`. -/
def CHUNK_SIZE : Nat := 10485760

namespace ChunkedFileReader

/-- One yielded item of `readChunks`: `{data, index, progress}`. -/
structure Chunk where
  data : List Nat
  index : Nat
  progress : Nat
  deriving Repr, DecidableEq

/-- `this.totalChunks = Math.ceil(file.size / CHUNK_SIZE)`: the ceiling
division (exact for every file size a browser can represent, the float
division never rounding across an integer for sizes below `2 ^ 53`). -/
def totalChunks (file : List Nat) : Nat :=
  (file.length + CHUNK_SIZE - 1) / CHUNK_SIZE

/-- The generator loop of `readChunks`, from a given `offset` and
`chunkIndex`: while `offset < file.size`, slice
`[offset, min (offset + CHUNK_SIZE) size)`, yield it with the running index
and `Math.round((offset / file.size) * 100)` (modelled as the exact rounded
percentage), then advance to `end`. -/
def readChunksFrom (file : List Nat) (offset chunkIndex : Nat) : List Chunk :=
  if h : offset < file.length then
    let endOff := min (offset + CHUNK_SIZE) file.length
    { data := (file.drop offset).take (endOff - offset)
      index := chunkIndex
      progress := (offset * 100 + file.length / 2) / file.length } ::
      readChunksFrom file endOff (chunkIndex + 1)
  else
    []
  termination_by file.length - offset
  decreasing_by
    have : offset < endOff := by
      have : 0 < CHUNK_SIZE := by norm_num [CHUNK_SIZE]
      omega
    omega

/-- `readChunks()`: the whole chunk sequence, from offset 0. -/
def readChunks (file : List Nat) : List Chunk :=
  readChunksFrom file 0 0

/-- The chunk-size sequence the loop produces for a source of `n` remaining
bytes: `min CHUNK_SIZE n` repeatedly until the source is exhausted.  A
specification device used to state the chunk arithmetic. -/
def chunkSizes (n : Nat) : List Nat :=
  if h : 0 < n then
    min CHUNK_SIZE n :: chunkSizes (n - min CHUNK_SIZE n)
  else
    []
  termination_by n
  decreasing_by
    have : 0 < CHUNK_SIZE := by norm_num [CHUNK_SIZE]
    omega

end ChunkedFileReader

/-! ## UTF-8 (`TextEncoder` / `TextDecoder`)

Strings are lists of Unicode scalar values.  `TextEncoder.encode` is the
standard UTF-8 encoding; `TextDecoder.decode` (non-fatal, the default used by
the decryptor) maps ill-formed input to U+FFFD replacement characters.
-/

/-- A Unicode scalar value: what one position of a JavaScript string can
denote once surrogate pairs are combined (the code never manufactures lone
surrogates). -/
def ScalarValue (c : Nat) : Prop := c < 1114112 ∧ ¬ (55296 ≤ c ∧ c ≤ 57343)

instance (c : Nat) : Decidable (ScalarValue c) := by unfold ScalarValue; infer_instance

/-- UTF-8 encoding of one scalar value (1–4 bytes). -/
def utf8EncodeChar (c : Nat) : List Nat :=
  if c < 128 then [c]
  else if c < 2048 then [192 + c / 64, 128 + c % 64]
  else if c < 65536 then [224 + c / 4096, 128 + c / 64 % 64, 128 + c % 64]
  else [240 + c / 262144, 128 + c / 4096 % 64, 128 + c / 64 % 64, 128 + c % 64]

/-- `TextEncoder.encode`. -/
def utf8Encode (s : List Nat) : List Nat :=
  s.flatMap utf8EncodeChar

/-- The lower bound the second byte of a three-byte sequence must satisfy
(WHATWG UTF-8 decoder: `0xE0` raises it to `0xA0` to exclude overlongs). -/
def utf8Lo3 (b0 : Nat) : Nat := if b0 = 224 then 160 else 128

/-- The upper bound for the second byte of a three-byte sequence (`0xED`
lowers it to `0x9F` to exclude surrogates). -/
def utf8Hi3 (b0 : Nat) : Nat := if b0 = 237 then 159 else 191

/-- Second-byte lower bound of a four-byte sequence (`0xF0` → `0x90`). -/
def utf8Lo4 (b0 : Nat) : Nat := if b0 = 240 then 144 else 128

/-- Second-byte upper bound of a four-byte sequence (`0xF4` → `0x8F`). -/
def utf8Hi4 (b0 : Nat) : Nat := if b0 = 244 then 143 else 191

/-- One step of the WHATWG UTF-8 decoder (`TextDecoder.decode`, default
non-fatal mode): given the lead byte and the remaining input, the decoded
scalar value (U+FFFD for ill-formed input) and the input that remains.  A
well-formed sequence consumes all its bytes; a lead whose continuation bytes
fail their checks emits U+FFFD and resumes at the offending byte; a sequence
truncated by the end of input emits a single U+FFFD. -/
def utf8DecodeStep (b0 : Nat) (rest : List Nat) : Nat × List Nat :=
  if b0 < 128 then (b0, rest)
  else if 194 ≤ b0 ∧ b0 ≤ 223 then
    match rest with
    | b1 :: r2 =>
      if 128 ≤ b1 ∧ b1 ≤ 191 then ((b0 - 192) * 64 + (b1 - 128), r2)
      else (65533, b1 :: r2)
    | [] => (65533, [])
  else if 224 ≤ b0 ∧ b0 ≤ 239 then
    match rest with
    | b1 :: b2 :: r3 =>
      if (utf8Lo3 b0 ≤ b1 ∧ b1 ≤ utf8Hi3 b0) ∧ (128 ≤ b2 ∧ b2 ≤ 191) then
        ((b0 - 224) * 4096 + (b1 - 128) * 64 + (b2 - 128), r3)
      else (65533, b1 :: b2 :: r3)
    | [b1] =>
      if utf8Lo3 b0 ≤ b1 ∧ b1 ≤ utf8Hi3 b0 then (65533, []) else (65533, [b1])
    | [] => (65533, [])
  else if 240 ≤ b0 ∧ b0 ≤ 244 then
    match rest with
    | b1 :: b2 :: b3 :: r4 =>
      if (utf8Lo4 b0 ≤ b1 ∧ b1 ≤ utf8Hi4 b0) ∧ (128 ≤ b2 ∧ b2 ≤ 191) ∧
          (128 ≤ b3 ∧ b3 ≤ 191) then
        ((b0 - 240) * 262144 + (b1 - 128) * 4096 + (b2 - 128) * 64 + (b3 - 128), r4)
      else (65533, b1 :: b2 :: b3 :: r4)
    | [b1] =>
      if utf8Lo4 b0 ≤ b1 ∧ b1 ≤ utf8Hi4 b0 then (65533, []) else (65533, [b1])
    | [b1, b2] =>
      if (utf8Lo4 b0 ≤ b1 ∧ b1 ≤ utf8Hi4 b0) ∧ (128 ≤ b2 ∧ b2 ≤ 191) then (65533, [])
      else (65533, [b1, b2])
    | [] => (65533, [])
  else (65533, rest)

/-- The decoding loop: one `utf8DecodeStep` per output scalar.  Every step
consumes at least the lead byte, so the input length is enough fuel. -/
def utf8DecodeLoop : Nat → List Nat → List Nat
  | _, [] => []
  | 0, _ :: _ => []
  | fuel + 1, b0 :: rest =>
    (utf8DecodeStep b0 rest).1 :: utf8DecodeLoop fuel (utf8DecodeStep b0 rest).2

/-- `TextDecoder.decode` (non-fatal): decode scalar by scalar. -/
def utf8Decode (bytes : List Nat) : List Nat :=
  utf8DecodeLoop bytes.length bytes

/-! ## JSON (`JSON.stringify` / `JSON.parse`)

The metadata record travels through the host JSON library.  `JSON.parse` is
modelled by a recursive-descent parser over scalar-value lists covering the
grammar the container can produce — literals, non-negative integers, strings
with the standard escapes, arrays, objects — and `JSON.stringify` by
printers specialized to the metadata record the encryptor builds.
-/

/-- Parsed JSON values. -/
inductive Json where
  | jnull : Json
  | jbool : Bool → Json
  | jnum : Nat → Json
  | jstr : List Nat → Json
  | jarr : List Json → Json
  | jobj : List (List Nat × Json) → Json
  deriving Repr

/-- JSON insignificant whitespace: space, tab, line feed, carriage return. -/
def jsonWs (c : Nat) : Bool := c = 32 ∨ c = 9 ∨ c = 10 ∨ c = 13

/-- Skip leading whitespace. -/
def skipWs : List Nat → List Nat
  | [] => []
  | c :: rest => if jsonWs c then skipWs rest else c :: rest

/-- Value of one hexadecimal digit character, if it is one. -/
def hexVal (c : Nat) : Option Nat :=
  if 48 ≤ c ∧ c ≤ 57 then some (c - 48)
  else if 97 ≤ c ∧ c ≤ 102 then some (c - 87)
  else if 65 ≤ c ∧ c ≤ 70 then some (c - 55)
  else none

/-- Parse a JSON string body after the opening quote: plain characters up to
the closing quote, rejecting raw control characters, with the escapes
`\" \\ \/ \b \f \n \r \t \uXXXX`.  Returns the string and the rest of the
input after the closing quote. -/
def parseStringBody : List Nat → Option (List Nat × List Nat)
  | [] => none
  | c :: rest =>
    if c = 34 then some ([], rest)
    else if c = 92 then
      match rest with
      | [] => none
      | e :: r2 =>
        if e = 34 ∨ e = 92 ∨ e = 47 then
          (parseStringBody r2).map fun p => ((if e = 47 then 47 else e) :: p.1, p.2)
        else if e = 98 then (parseStringBody r2).map fun p => (8 :: p.1, p.2)
        else if e = 102 then (parseStringBody r2).map fun p => (12 :: p.1, p.2)
        else if e = 110 then (parseStringBody r2).map fun p => (10 :: p.1, p.2)
        else if e = 114 then (parseStringBody r2).map fun p => (13 :: p.1, p.2)
        else if e = 116 then (parseStringBody r2).map fun p => (9 :: p.1, p.2)
        else if e = 117 then
          match r2 with
          | h1 :: h2 :: h3 :: h4 :: r3 =>
            match hexVal h1, hexVal h2, hexVal h3, hexVal h4 with
            | some d1, some d2, some d3, some d4 =>
              (parseStringBody r3).map fun p =>
                ((((d1 * 16 + d2) * 16 + d3) * 16 + d4) :: p.1, p.2)
            | _, _, _, _ => none
          | _ => none
        else none
    else if c < 32 then none
    else (parseStringBody rest).map fun p => (c :: p.1, p.2)

/-- Accumulate a run of decimal digits, starting from `acc`. -/
def parseDigits : List Nat → Nat → Nat × List Nat
  | c :: rest, acc =>
    if 48 ≤ c ∧ c ≤ 57 then parseDigits rest (acc * 10 + (c - 48))
    else (acc, c :: rest)
  | [], acc => (acc, [])

mutual

/-- Parse one JSON value after optional whitespace.  The fuel argument
decreases on every recursive call; any fuel at least the input's length plus
one suffices. -/
def parseValue : Nat → List Nat → Option (Json × List Nat)
  | 0, _ => none
  | fuel + 1, input =>
    match skipWs input with
    | [] => none
    | c :: rest =>
      if c = 34 then (parseStringBody rest).map fun p => (Json.jstr p.1, p.2)
      else if c = 123 then
        match skipWs rest with
        | 125 :: r2 => some (Json.jobj [], r2)
        | r2 => (parseMembers fuel r2).map fun p => (Json.jobj p.1, p.2)
      else if c = 91 then
        match skipWs rest with
        | 93 :: r2 => some (Json.jarr [], r2)
        | r2 => (parseElements fuel r2).map fun p => (Json.jarr p.1, p.2)
      else if c = 116 then
        match rest with
        | 114 :: 117 :: 101 :: r2 => some (Json.jbool true, r2)
        | _ => none
      else if c = 102 then
        match rest with
        | 97 :: 108 :: 115 :: 101 :: r2 => some (Json.jbool false, r2)
        | _ => none
      else if c = 110 then
        match rest with
        | 117 :: 108 :: 108 :: r2 => some (Json.jnull, r2)
        | _ => none
      else if 48 ≤ c ∧ c ≤ 57 then
        let p := parseDigits rest (c - 48)
        some (Json.jnum p.1, p.2)
      else none

/-- Parse the members of a non-empty object, positioned at the first key. -/
def parseMembers : Nat → List Nat → Option (List (List Nat × Json) × List Nat)
  | 0, _ => none
  | fuel + 1, input =>
    match input with
    | 34 :: rest =>
      match parseStringBody rest with
      | some (key, r1) =>
        match skipWs r1 with
        | 58 :: r2 =>
          match parseValue fuel r2 with
          | some (v, r3) =>
            match skipWs r3 with
            | 44 :: r4 => (parseMembers fuel (skipWs r4)).map fun p => ((key, v) :: p.1, p.2)
            | 125 :: r4 => some ([(key, v)], r4)
            | _ => none
          | none => none
        | _ => none
      | none => none
    | _ => none

/-- Parse the elements of a non-empty array, positioned at the first
element. -/
def parseElements : Nat → List Nat → Option (List Json × List Nat)
  | 0, _ => none
  | fuel + 1, input =>
    match parseValue fuel input with
    | some (v, r1) =>
      match skipWs r1 with
      | 44 :: r2 => (parseElements fuel (skipWs r2)).map fun p => (v :: p.1, p.2)
      | 93 :: r2 => some ([v], r2)
      | _ => none
    | none => none

end

/-- `JSON.parse`: parse one value and require only whitespace to remain. -/
def jsonParse (input : List Nat) : Option Json :=
  match parseValue (input.length + 1) input with
  | some (v, rest) => if skipWs rest = [] then some v else none
  | none => none

/-! ## `JSON.stringify` for the metadata record

`Encryptor.createMetadata` builds a fixed-shape object literal;
`JSON.stringify` prints its fields in insertion order with no whitespace,
escaping `"`, `\` and control characters in strings and printing integers
below `2 ^ 53` as plain decimal digits.  The printers below are that
serialization, specialized to the record's shape.
-/

/-- `JSON.stringify`'s escaping of one string character: `\"`, `\\`, the
short control escapes `\b \t \n \f \r`, `\u00xx` (lowercase hex) for the
remaining control characters, every other scalar value unchanged. -/
def escChar (c : Nat) : List Nat :=
  if c = 34 then [92, 34]
  else if c = 92 then [92, 92]
  else if c = 8 then [92, 98]
  else if c = 9 then [92, 116]
  else if c = 10 then [92, 110]
  else if c = 12 then [92, 102]
  else if c = 13 then [92, 114]
  else if c < 32 then
    [92, 117, 48, 48, if c / 16 < 10 then 48 + c / 16 else 87 + c / 16,
      if c % 16 < 10 then 48 + c % 16 else 87 + c % 16]
  else [c]

/-- A JSON string literal: quote, escaped characters, quote. -/
def printStr (s : List Nat) : List Nat :=
  34 :: s.flatMap escChar ++ [34]

/-- Little-endian decimal digit characters of `n + 1` (helper for
`natToDigits`); the fuel is structural and any fuel at least the value
suffices. -/
def digitsRevAux : Nat → Nat → List Nat
  | _, 0 => []
  | 0, _ + 1 => []
  | fuel + 1, n + 1 => (48 + (n + 1) % 10) :: digitsRevAux fuel ((n + 1) / 10)

/-- Decimal digit characters of `n`, as `JSON.stringify` prints a
non-negative integer below `2 ^ 53`. -/
def natToDigits (n : Nat) : List Nat :=
  if n = 0 then [48] else (digitsRevAux n n).reverse

/-- `true` / `false`. -/
def printBool (b : Bool) : List Nat :=
  if b then [116, 114, 117, 101] else [102, 97, 108, 115, 101]

/-- The comma-separated element list of a printed array of integers
(`JSON.stringify(Array.from(keyData))` between its brackets). -/
def printElems : List Nat → List Nat
  | [] => []
  | [k] => natToDigits k
  | k1 :: k2 :: ks => natToDigits k1 ++ 44 :: printElems (k2 :: ks)

/-- ASCII of the seven metadata field names. -/
def versionKey : List Nat := [118, 101, 114, 115, 105, 111, 110]

/-- `filename`. -/
def filenameKey : List Nat := [102, 105, 108, 101, 110, 97, 109, 101]

/-- `mimeType`. -/
def mimeTypeKey : List Nat := [109, 105, 109, 101, 84, 121, 112, 101]

/-- `hasPassword`. -/
def hasPasswordKey : List Nat := [104, 97, 115, 80, 97, 115, 115, 119, 111, 114, 100]

/-- `chunksCount`. -/
def chunksCountKey : List Nat := [99, 104, 117, 110, 107, 115, 67, 111, 117, 110, 116]

/-- `timestamp`. -/
def timestampKey : List Nat := [116, 105, 109, 101, 115, 116, 97, 109, 112]

/-- `key`. -/
def keyKey : List Nat := [107, 101, 121]

/-! ## The metadata record and the crypto modules -/

/-- The metadata record `Encryptor.createMetadata` builds: strings are
scalar-value lists, `timestamp` is `Date.now()` (epoch milliseconds),
`key` is `Array.from(keyData)` for password-less containers and `null`
otherwise. -/
structure Metadata where
  version : List Nat
  filename : List Nat
  mimeType : List Nat
  hasPassword : Bool
  chunksCount : Nat
  timestamp : Nat
  key : Option (List Nat)
  deriving Repr, DecidableEq

/-- The printed field value of `key`. -/
def printKeyField : Option (List Nat) → List Nat
  | none => [110, 117, 108, 108]
  | some ks => 91 :: printElems ks ++ [93]

/-- `JSON.stringify(metadata)`: the object literal of `createMetadata`,
fields in insertion order, no whitespace. -/
def printMetadataJson (m : Metadata) : List Nat :=
  [123] ++ printStr versionKey ++ [58] ++ printStr m.version ++
  [44] ++ printStr filenameKey ++ [58] ++ printStr m.filename ++
  [44] ++ printStr mimeTypeKey ++ [58] ++ printStr m.mimeType ++
  [44] ++ printStr hasPasswordKey ++ [58] ++ printBool m.hasPassword ++
  [44] ++ printStr chunksCountKey ++ [58] ++ natToDigits m.chunksCount ++
  [44] ++ printStr timestampKey ++ [58] ++ natToDigits m.timestamp ++
  [44] ++ printStr keyKey ++ [58] ++ printKeyField m.key ++
  [125]

/-- Fuel surcharge the key field costs the parser: one unit per array
element. -/
def keyCost : Option (List Nat) → Nat
  | none => 0
  | some ks => ks.length

/-- The JSON node the key field parses to. -/
def keyJsonVal : Option (List Nat) → Json
  | none => .jnull
  | some ks => .jarr (ks.map .jnum)

/-- The JSON value `JSON.parse` recovers from the serialized metadata: the
same record as a `Json` object. -/
def metadataToJson (m : Metadata) : Json :=
  .jobj [(versionKey, .jstr m.version), (filenameKey, .jstr m.filename),
    (mimeTypeKey, .jstr m.mimeType), (hasPasswordKey, .jbool m.hasPassword),
    (chunksCountKey, .jnum m.chunksCount), (timestampKey, .jnum m.timestamp),
    (keyKey, keyJsonVal m.key)]

/-- The numeric value of a JSON number node. -/
def jnumVal : Json → Option Nat
  | .jnum n => some n
  | _ => none

/-- Read the typed metadata record back off a parsed JSON value of exactly
the shape `createMetadata` produces. -/
def metadataOfJson : Json → Option Metadata
  | .jobj [(k1, .jstr v), (k2, .jstr f), (k3, .jstr mt), (k4, .jbool hp),
      (k5, .jnum cc), (k6, .jnum ts), (k7, kv)] =>
    if k1 = versionKey ∧ k2 = filenameKey ∧ k3 = mimeTypeKey ∧ k4 = hasPasswordKey ∧
        k5 = chunksCountKey ∧ k6 = timestampKey ∧ k7 = keyKey then
      match kv with
      | .jnull => some ⟨v, f, mt, hp, cc, ts, none⟩
      | .jarr xs =>
        (xs.mapM jnumVal).map fun ks => Metadata.mk v f mt hp cc ts (some ks)
      | _ => none
    else none
  | _ => none

namespace KeyManager

/-- The arguments `KeyManager.deriveKey` hands to WebCrypto: the encoded
password as PBKDF2 key material, the salt, and 100000 iterations of
HMAC-SHA-256.  The derivation itself happens in the host; determinism in
these parameters is all the repository relies on.  Note the function
performs no validation of its own — an empty password is encoded to an
empty key-material buffer and passed through. -/
structure DerivedKeyParams where
  material : List Nat
  salt : List Nat
  iterations : Nat
  deriving Repr, DecidableEq

/-- `KeyManager.deriveKey(password, salt)`. -/
def deriveKey (password salt : List Nat) : Except String DerivedKeyParams :=
  .ok { material := utf8Encode password, salt := salt, iterations := 100000 }

end KeyManager

namespace Encryptor

/-- What `Encryptor.prepareKey` returns: a password-derived key (with
`keyData = null`), or a freshly generated random key whose raw bytes will be
embedded in the metadata. -/
inductive PreparedKey where
  | derived : KeyManager.DerivedKeyParams → PreparedKey
  | randomKey : PreparedKey
  deriving Repr, DecidableEq

/-- `Encryptor.prepareKey(password, salt)`: `if (password)` — an empty (or
absent) password is falsy, so it takes the random-key branch; otherwise the
key is derived from the password. -/
def prepareKey (password salt : List Nat) : Except String PreparedKey :=
  if password = [] then .ok .randomKey
  else (KeyManager.deriveKey password salt).map .derived

/-- `Encryptor.serializeMetadata`: the UTF-8 bytes of the JSON text followed
by their count as a little-endian 32-bit integer
(`view.setUint32(metadataBytes.length, metadataBytes.length, true)`). -/
def serializeMetadata (m : Metadata) : List Nat :=
  let metadataBytes := utf8Encode (printMetadataJson m)
  metadataBytes ++ u32le metadataBytes.length

/-- `Encryptor.buildEncryptedFile(salt, iv, encryptedChunks, metadata)`: the
`Blob` concatenation `salt | iv | chunks… | metadata`. -/
def buildEncryptedFile (salt iv : List Nat) (encryptedChunks : List (List Nat))
    (metadata : List Nat) : List Nat :=
  salt ++ iv ++ encryptedChunks.flatten ++ metadata

/-- One `Encryptor.encryptChunk(data, key, iv)` call as `handleEncryption`
issues it: an AES-GCM seal of `data` under the run's key with nonce `iv`.
The record keeps the data and the nonce — the two inputs the nonce-
discipline requirement constrains. -/
structure SealedChunk where
  data : List Nat
  iv : List Nat
  deriving Repr, DecidableEq

/-- `encryptChunk` (the seal call itself). -/
def encryptChunk (data iv : List Nat) : SealedChunk :=
  { data := data, iv := iv }

/-- The per-chunk encryption loop of `handleEncryption`: one `iv` is
generated before the loop (`const iv = KeyManager.generateIV()`) and the
loop body calls `Encryptor.encryptChunk(chunk.data, key, iv)` with that same
`iv` for every chunk the reader yields. -/
def handleEncryptionSeals (file iv : List Nat) : List SealedChunk :=
  (ChunkedFileReader.readChunks file).map fun c => encryptChunk c.data iv

end Encryptor

namespace Decryptor

/-- The result of `Decryptor.parseEncryptedFile`. -/
structure ParsedFile where
  salt : List Nat
  iv : List Nat
  encryptedData : List Nat
  metadata : Json
  deriving Repr

/-- The trailing little-endian 32-bit metadata length
(`new DataView(fileData, data.length - 4, 4).getUint32(0, true)`). -/
def metaLen (data : List Nat) : Nat :=
  readU32LE (data.drop (data.length - 4))

/-- The metadata byte region `data.slice(metadataStart, data.length - 4)`. -/
def metaBytes (data : List Nat) : List Nat :=
  (data.drop (data.length - 4 - metaLen data)).take (metaLen data)

/-- `Decryptor.parseEncryptedFile`, stage by stage: minimum length 28 + 4;
salt `slice(0, 16)`; IV `slice(16, 28)`; trailing length with the range
check `metadataLength <= 0 || metadataLength > data.length - 32`; the
start-offset check `metadataStart < 28`; `TextDecoder` plus `JSON.parse` on
the metadata slice; ciphertext region `slice(28, metadataStart)`. -/
def parseEncryptedFile (data : List Nat) : Except String ParsedFile :=
  if data.length < 28 + 4 then
    .error "File is too small to be a valid encrypted file"
  else
    let metadataLength := metaLen data
    if metadataLength = 0 ∨ data.length - 32 < metadataLength then
      .error "Invalid metadata length in encrypted file"
    else
      let metadataStart := data.length - 4 - metadataLength
      if metadataStart < 28 then
        .error "Invalid file structure: metadata overlaps with header"
      else
        match jsonParse (utf8Decode (metaBytes data)) with
        | none => .error "Invalid metadata JSON"
        | some metadata =>
          .ok { salt := data.take 16, iv := (data.drop 16).take 12,
                encryptedData := (data.drop 28).take (metadataStart - 28),
                metadata := metadata }

/-- What `Decryptor.prepareKey` produces: a PBKDF2-derived key or a raw key
imported from the metadata's embedded bytes. -/
inductive KeyHandle where
  | derived : KeyManager.DerivedKeyParams → KeyHandle
  | imported : List Nat → KeyHandle
  deriving Repr, DecidableEq

/-- `Decryptor.prepareKey(metadata, password, salt)` on the typed view of
the metadata record: a password-protected container rejects an absent or
empty password (`if (!password)`) before any derivation; a password-less
container requires the embedded key. -/
def prepareKey (metadata : Metadata) (password salt : List Nat) :
    Except String KeyHandle :=
  if metadata.hasPassword then
    if password = [] then .error "Password required for this file"
    else (KeyManager.deriveKey password salt).map .derived
  else
    match metadata.key with
    | none => .error "Invalid file format: missing key data"
    | some keyData => .ok (.imported keyData)

end Decryptor

/-- The capacity formula exactly as the specification words it —
`floor((pixelWidth * pixelHeight * 3 - 32) / 8)` — to be compared against
the source's `LSBEncoder.getMaxCapacity`. -/
def specCapacity (pixelWidth pixelHeight : Nat) : Int :=
  ((pixelWidth : Int) * (pixelHeight : Int) * 3 - 32) / 8

/-! # Verification

Helper lemmas first, then one theorem per claim (with a witness where the
theorem carries hypotheses).
-/

/-! ## Bit and byte lemmas -/

theorem byteBits_length (b : Nat) : (byteBits b).length = 8 := rfl

theorem bitsOfBytes_length (bs : List Nat) : (bitsOfBytes bs).length = 8 * bs.length := by
  induction bs with
  | nil => rfl
  | cons b bs ih =>
    simp only [bitsOfBytes, List.flatMap_cons] at *
    simp [ih, byteBits_length]
    omega

theorem byteBits_lt_two (b : Nat) : ∀ x ∈ byteBits b, x < 2 := by
  intro x hx
  simp only [byteBits, List.mem_cons, List.not_mem_nil, or_false] at hx
  rcases hx with rfl | rfl | rfl | rfl | rfl | rfl | rfl | rfl <;> omega

theorem bitsOfBytes_lt_two (bs : List Nat) : ∀ x ∈ bitsOfBytes bs, x < 2 := by
  intro x hx
  simp only [bitsOfBytes, List.mem_flatMap] at hx
  obtain ⟨b, _, hb⟩ := hx
  exact byteBits_lt_two b x hb

theorem bitsOfBytes_append (a b : List Nat) :
    bitsOfBytes (a ++ b) = bitsOfBytes a ++ bitsOfBytes b := by
  simp [bitsOfBytes]

theorem bytesFromBits_byteBits (b : Nat) (hb : b < 256) (rest : List Nat) :
    bytesFromBits (byteBits b ++ rest) = b :: bytesFromBits rest := by
  simp only [byteBits, List.cons_append, List.nil_append, bytesFromBits]
  congr 1
  omega

theorem bytesFromBits_bitsOfBytes (bs rest : List Nat) (h : ∀ b ∈ bs, b < 256) :
    bytesFromBits (bitsOfBytes bs ++ rest) = bs ++ bytesFromBits rest := by
  induction bs with
  | nil => simp [bitsOfBytes]
  | cons b bs ih =>
    have hb : b < 256 := h b (by simp)
    simp only [bitsOfBytes, List.flatMap_cons, List.append_assoc]
    rw [bytesFromBits_byteBits b hb]
    simp only [List.cons_append]
    congr 1
    exact ih fun x hx => h x (by simp [hx])

theorem u32be_length (n : Nat) : (u32be n).length = 4 := rfl

theorem u32be_lt (n : Nat) : ∀ b ∈ u32be n, b < 256 := by
  intro b hb
  simp only [u32be, List.mem_cons, List.not_mem_nil, or_false] at hb
  rcases hb with rfl | rfl | rfl | rfl <;> omega

theorem beU32_u32be (n : Nat) (h : n < 4294967296) : beU32 (u32be n) = n := by
  simp only [u32be, beU32]
  omega

theorem u32le_lt (n : Nat) : ∀ b ∈ u32le n, b < 256 := by
  intro b hb
  simp only [u32le, List.mem_cons, List.not_mem_nil, or_false] at hb
  rcases hb with rfl | rfl | rfl | rfl <;> omega

theorem readU32LE_u32le (n : Nat) (h : n < 4294967296) (rest : List Nat) :
    readU32LE (u32le n ++ rest) = n := by
  simp only [u32le, List.cons_append, List.nil_append, readU32LE]
  omega

theorem padTo_eq_self (n : Nat) (xs : List Nat) (h : xs.length = n) : padTo n xs = xs := by
  simp [padTo, h]

theorem padTo_length (n : Nat) (xs : List Nat) (h : xs.length ≤ n) :
    (padTo n xs).length = n := by
  simp [padTo]
  omega

/-! ## LSB codec lemmas -/

namespace LSBEncoder

theorem hideLoop_length (px bits : List Nat) : (hideLoop px bits).length = px.length := by
  induction px, bits using hideLoop.induct <;> simp [hideLoop, *]

theorem writeLsb_mod_two (v b : Nat) (hb : b < 2) : writeLsb v b % 2 = b := by
  simp only [writeLsb]
  omega

theorem writeLsb_div_two (v b : Nat) (hb : b < 2) : writeLsb v b / 2 = v / 2 := by
  simp only [writeLsb]
  omega

theorem lsbBits_length (px : List Nat) (h4 : px.length % 4 = 0) :
    (lsbBits px).length = 3 * (px.length / 4) := by
  induction px using lsbBits.induct with
  | case1 r g b a rest ih =>
    simp only [List.length_cons] at h4
    simp only [lsbBits, List.length_cons]
    rw [ih (by omega)]
    omega
  | case2 r => simp at h4
  | case3 r g => simp at h4
  | case4 r g b => simp at h4
  | case5 => simp [lsbBits]

/-- The heart of the stego round trip: writing a bitstream that fits into the
full pixel groups of the buffer and reading the LSB stream back yields the
written bits followed by the untouched remainder of the original stream. -/
theorem lsbBits_hideLoop (px bits : List Nat) (h4 : px.length % 4 = 0)
    (hfit : bits.length ≤ 3 * (px.length / 4)) (hb : ∀ x ∈ bits, x < 2) :
    lsbBits (hideLoop px bits) = bits ++ (lsbBits px).drop bits.length := by
  induction px, bits using hideLoop.induct with
  | case1 px => simp [hideLoop]
  | case2 b0 bs => simp at hfit
  | case3 r b0 bs => simp at h4
  | case4 r g b0 => simp at h4
  | case5 r g b0 b1 bs => simp at h4
  | case6 r g b b0 => simp at h4
  | case7 r g b b0 b1 => simp at h4
  | case8 r g b b0 b1 b2 bs => simp at h4
  | case9 r g b a rest b0 =>
    have hb0 : b0 < 2 := hb b0 (by simp)
    simp [hideLoop, lsbBits, writeLsb_mod_two r b0 hb0]
  | case10 r g b a rest b0 b1 =>
    have hb0 : b0 < 2 := hb b0 (by simp)
    have hb1 : b1 < 2 := hb b1 (by simp)
    simp [hideLoop, lsbBits, writeLsb_mod_two r b0 hb0, writeLsb_mod_two g b1 hb1]
  | case11 r g b a rest b0 b1 b2 bs ih =>
    have hb0 : b0 < 2 := hb b0 (by simp)
    have hb1 : b1 < 2 := hb b1 (by simp)
    have hb2 : b2 < 2 := hb b2 (by simp)
    have h4r : rest.length % 4 = 0 := by
      simp only [List.length_cons] at h4
      omega
    have hfitr : bs.length ≤ 3 * (rest.length / 4) := by
      simp only [List.length_cons] at hfit ⊢
      omega
    have hbr : ∀ x ∈ bs, x < 2 := fun x hx => hb x (by simp [hx])
    simp [hideLoop, lsbBits, writeLsb_mod_two r b0 hb0, writeLsb_mod_two g b1 hb1,
      writeLsb_mod_two b b2 hb2, ih h4r hfitr hbr]

end LSBEncoder

namespace LSBEncoder

theorem hasCapacity_iff (width height n : Nat) :
    hasCapacity width height n = true ↔ (n : Int) ≤ getMaxCapacity width height := by
  simp [hasCapacity]

/-- A payload within capacity fits, header included, in the usable bit
planes: `32 + 8 * n ≤ 3 * (width * height)`. -/
theorem hasCapacity_bits (width height n : Nat)
    (h : hasCapacity width height n = true) : 32 + 8 * n ≤ 3 * (width * height) := by
  rw [hasCapacity_iff] at h
  unfold getMaxCapacity at h
  rw [Int.le_ediv_iff_mul_le (by norm_num)] at h
  omega

theorem getD_lt_two (l : List Nat) (h : ∀ x ∈ l, x < 2) (j : Nat) : l.getD j 0 < 2 := by
  by_cases hj : j < l.length
  · rw [List.getD_eq_getElem l 0 hj]
    exact h _ (List.getElem_mem hj)
  · rw [List.getD_eq_default l 0 (by omega)]
    omega

theorem hideBitstream_length (payload : List Nat) :
    (hideBitstream payload).length = 32 + 8 * payload.length := by
  simp [hideBitstream, bitsOfBytes_length, u32be_length]
  omega

/-- Sample-level description of the mutation loop: sample `k` is unchanged
if it is an alpha sample or its bit-stream position `3 * (k / 4) + k % 4` is
past the bitstream; otherwise its LSB is replaced by the stream bit at that
position. -/
theorem hideLoop_getD (px bits : List Nat) (h4 : px.length % 4 = 0) :
    ∀ k, k < px.length →
      (hideLoop px bits).getD k 0 =
        if k % 4 = 3 ∨ bits.length ≤ 3 * (k / 4) + k % 4 then px.getD k 0
        else writeLsb (px.getD k 0) (bits.getD (3 * (k / 4) + k % 4) 0) := by
  induction px, bits using hideLoop.induct with
  | case1 px =>
    intro k hk
    simp [hideLoop]
  | case2 b0 bs =>
    intro k hk
    simp at hk
  | case3 r b0 bs => simp at h4
  | case4 r g b0 => simp at h4
  | case5 r g b0 b1 bs => simp at h4
  | case6 r g b b0 => simp at h4
  | case7 r g b b0 b1 => simp at h4
  | case8 r g b b0 b1 b2 bs => simp at h4
  | case9 r g b a rest b0 =>
    intro k hk
    rcases k with _ | _ | _ | _ | k <;>
      simp only [hideLoop, List.getD_cons_zero, List.getD_cons_succ, List.length_cons,
        List.length_nil]
    · rw [if_neg (by omega)]
      rfl
    · rw [if_pos (by omega)]
    · rw [if_pos (by omega)]
    · rw [if_pos (by omega)]
    · rw [if_pos (by omega)]
  | case10 r g b a rest b0 b1 =>
    intro k hk
    rcases k with _ | _ | _ | _ | k <;>
      simp only [hideLoop, List.getD_cons_zero, List.getD_cons_succ, List.length_cons,
        List.length_nil]
    · rw [if_neg (by omega)]
      rfl
    · rw [if_neg (by omega)]
      rfl
    · rw [if_pos (by omega)]
    · rw [if_pos (by omega)]
    · rw [if_pos (by omega)]
  | case11 r g b a rest b0 b1 b2 bs ih =>
    intro k hk
    have h4r : rest.length % 4 = 0 := by
      simp only [List.length_cons] at h4
      omega
    rcases k with _ | _ | _ | _ | k <;>
      simp only [hideLoop, List.getD_cons_zero, List.getD_cons_succ, List.length_cons,
        List.length_nil] at hk ⊢
    · rw [if_neg (by omega)]
      try rfl
    · rw [if_neg (by omega)]
      try rfl
    · rw [if_neg (by omega)]
      try rfl
    · rw [if_pos (Or.inl trivial)]
    · have hkr : k < rest.length := by omega
      rw [ih h4r k hkr]
      have ei : 3 * ((k + 1 + 1 + 1 + 1) / 4) + (k + 1 + 1 + 1 + 1) % 4 =
          (3 * (k / 4) + k % 4) + 3 := by omega
      by_cases hc : k % 4 = 3 ∨ bs.length ≤ 3 * (k / 4) + k % 4
      · rw [if_pos hc, if_pos (by omega)]
      · rw [if_neg hc, if_neg (by omega)]
        congr 1
        rw [ei]
        rfl

end LSBEncoder

/-! ## Claim C8 — capacity formula -/

/-- C8: for every image of `pixelWidth` W and `pixelHeight` H, `getMaxCapacity`
returns `floor((W * H * 3 - 32) / 8)` bytes, `hasCapacity image n` holds iff
`n` is at most that value, and a 200×200 image has capacity 14996 bytes. -/
theorem capacity_formula :
    (∀ width height n, LSBEncoder.getMaxCapacity width height = specCapacity width height ∧
      (LSBEncoder.hasCapacity width height n = true ↔
        (n : Int) ≤ specCapacity width height)) ∧
    LSBEncoder.getMaxCapacity 200 200 = 14996 := by
  constructor
  · intro width height n
    have he : LSBEncoder.getMaxCapacity width height = specCapacity width height := by
      unfold LSBEncoder.getMaxCapacity specCapacity
      push_cast
      ring_nf
    refine ⟨he, ?_⟩
    rw [LSBEncoder.hasCapacity_iff, he]
  · decide

/-! ## Claim C4 — capacity boundary with atomicity -/

/-- C4: embedding a payload of exactly `capacity(W, H)` bytes succeeds, while
any payload longer than capacity fails with the capacity error, the check
running before any pixel is read or written, so the cover buffer is
unmodified on failure. -/
theorem embed_capacity_boundary (width height : Nat) (pixels payload : List Nat) :
    (((payload.length : Int) = LSBEncoder.getMaxCapacity width height) →
      (LSBEncoder.hide width height pixels payload).isOk = true) ∧
    ((LSBEncoder.getMaxCapacity width height < (payload.length : Int)) →
      LSBEncoder.hide width height pixels payload =
          .error "File is too large for this cover image." ∧
        LSBEncoder.hideFinalPixels width height pixels payload = pixels) := by
  constructor
  · intro h
    have hc : LSBEncoder.hasCapacity width height payload.length = true := by
      rw [LSBEncoder.hasCapacity_iff, h]
    simp [LSBEncoder.hide, hc, Except.isOk, Except.toBool]
  · intro h
    have hc : LSBEncoder.hasCapacity width height payload.length = false := by
      rw [Bool.eq_false_iff]
      intro hc
      rw [LSBEncoder.hasCapacity_iff] at hc
      omega
    constructor
    · simp [LSBEncoder.hide, hc]
    · simp [LSBEncoder.hideFinalPixels, hc]

/-- Witness for C4 on a 4×4 cover (capacity 2): a 2-byte payload is accepted,
a 3-byte payload is rejected with the buffer untouched. -/
theorem embed_capacity_boundary_witness :
    (LSBEncoder.hide 4 4 (List.replicate 64 0) [10, 20]).isOk = true ∧
    (LSBEncoder.hide 4 4 (List.replicate 64 0) [10, 20, 30] =
        .error "File is too large for this cover image." ∧
      LSBEncoder.hideFinalPixels 4 4 (List.replicate 64 0) [10, 20, 30] =
        List.replicate 64 0) :=
  ⟨(embed_capacity_boundary 4 4 (List.replicate 64 0) [10, 20]).1 (by decide),
    (embed_capacity_boundary 4 4 (List.replicate 64 0) [10, 20, 30]).2 (by decide)⟩

/-! ## Claim C3 — stego round trip -/

/-- C3 counterexample: the round trip fails for the empty payload.  On a 4×4
all-zero cover (capacity 2 bytes ≥ 0), `hide` succeeds, but `reveal` of the
result throws the corruption error because the recovered declared length is
0 — so `extract(embed(cover, payload)) == payload` does not hold for
payloads of size 0. -/
theorem stego_roundtrip_zero_payload_fails :
    (LSBEncoder.hide 4 4 (List.replicate 64 0) []).bind LSBEncoder.reveal =
      .error "No valid hidden data found or file corrupted." := by
  rfl

/-- C3 (amended): for payloads of 1 up to capacity bytes (the zero-size case
necessarily fails, since the extractor rejects a declared length of 0),
extracting from the pixels produced by a successful embed returns exactly
the original payload.  The payload length is below `2 ^ 32` as the 32-bit
length header requires, and the pixel buffer is the `4 * W * H`-sample
buffer of the cover's `ImageData`. -/
theorem stego_roundtrip_amended (width height : Nat) (pixels payload : List Nat)
    (hpx : pixels.length = 4 * (width * height))
    (hbytes : ∀ b ∈ payload, b < 256)
    (hpos : 1 ≤ payload.length)
    (h32 : payload.length < 4294967296)
    (hcap : LSBEncoder.hasCapacity width height payload.length = true) :
    LSBEncoder.hide width height pixels payload =
        .ok (LSBEncoder.hideLoop pixels (LSBEncoder.hideBitstream payload)) ∧
      LSBEncoder.reveal (LSBEncoder.hideLoop pixels (LSBEncoder.hideBitstream payload)) =
        .ok payload := by
  have hbig : 32 + 8 * payload.length ≤ 3 * (width * height) :=
    LSBEncoder.hasCapacity_bits width height payload.length hcap
  constructor
  · simp [LSBEncoder.hide, hcap]
  · set out := LSBEncoder.hideLoop pixels (LSBEncoder.hideBitstream payload) with hout
    have h4 : pixels.length % 4 = 0 := by omega
    have hdiv : pixels.length / 4 = width * height := by omega
    have hfit : (LSBEncoder.hideBitstream payload).length ≤ 3 * (pixels.length / 4) := by
      rw [LSBEncoder.hideBitstream_length, hdiv]
      omega
    have hstream : LSBEncoder.lsbBits out =
        LSBEncoder.hideBitstream payload ++
          (LSBEncoder.lsbBits pixels).drop (LSBEncoder.hideBitstream payload).length :=
      LSBEncoder.lsbBits_hideLoop pixels _ h4 hfit
        (bitsOfBytes_lt_two (u32be payload.length ++ payload))
    have hsplit : LSBEncoder.hideBitstream payload =
        bitsOfBytes (u32be payload.length) ++ bitsOfBytes payload := by
      rw [LSBEncoder.hideBitstream, bitsOfBytes_append]
    have hhdrlen : (bitsOfBytes (u32be payload.length)).length = 32 := by
      rw [bitsOfBytes_length, u32be_length]
    have htake : (LSBEncoder.lsbBits out).take 32 = bitsOfBytes (u32be payload.length) := by
      rw [hstream, hsplit, List.append_assoc, ← hhdrlen,
        List.take_append_of_le_length (le_refl _), List.take_length]
    have hdrop : (LSBEncoder.lsbBits out).drop 32 =
        bitsOfBytes payload ++
          (LSBEncoder.lsbBits pixels).drop (LSBEncoder.hideBitstream payload).length := by
      rw [hstream, hsplit, List.append_assoc, ← hhdrlen, List.drop_left]
    have hdecl : LSBEncoder.declaredLength out = payload.length := by
      rw [LSBEncoder.declaredLength, htake]
      have : bitsOfBytes (u32be payload.length) = bitsOfBytes (u32be payload.length) ++ [] :=
        (List.append_nil _).symm
      rw [this, bytesFromBits_bitsOfBytes _ [] (u32be_lt _),
        show bytesFromBits [] = [] from rfl]
      rw [List.append_nil, padTo_eq_self 4 _ (u32be_length _)]
      exact beU32_u32be _ h32
    have houtlen : out.length = pixels.length := LSBEncoder.hideLoop_length _ _
    have hbody : (bytesFromBits ((LSBEncoder.lsbBits out).drop 32)).take payload.length =
        payload := by
      rw [hdrop, bytesFromBits_bitsOfBytes _ _ hbytes]
      exact List.take_left _ _
    rw [LSBEncoder.reveal]
    rw [if_neg (by rw [hdecl, houtlen, hpx]; omega)]
    rw [hdecl, hbody, padTo_eq_self _ _ rfl]

/-- Witness for C3 on a 4×4 cover: a 1-byte payload round-trips. -/
theorem stego_roundtrip_amended_witness :
    (List.replicate 64 200).length = 4 * (4 * 4) ∧
    LSBEncoder.hide 4 4 (List.replicate 64 200) [171] =
        .ok (LSBEncoder.hideLoop (List.replicate 64 200) (LSBEncoder.hideBitstream [171])) ∧
      LSBEncoder.reveal
          (LSBEncoder.hideLoop (List.replicate 64 200) (LSBEncoder.hideBitstream [171])) =
        .ok [171] :=
  ⟨by rw [List.length_replicate],
    stego_roundtrip_amended 4 4 (List.replicate 64 200) [171]
      (by rw [List.length_replicate]) (by decide) (by decide) (by decide) (by decide)⟩

/-! ## Claim C5 — extract length validation -/

/-- C5 counterexample: `reveal` does not validate the declared length against
`capacity(W, H)`.  On a 4×4 stego buffer (capacity 2 bytes) whose first 32
LSBs declare a length of 3, `reveal` raises no error and returns a 3-byte
buffer — the read simply runs off the end of the bitstream and the missing
bytes stay zero. -/
theorem reveal_accepts_length_beyond_capacity :
    LSBEncoder.reveal (List.replicate 40 0 ++ [1, 1] ++ List.replicate 22 0) =
        .ok [0, 0, 0] ∧
      LSBEncoder.getMaxCapacity 4 4 < 3 ∧
      (List.replicate 40 0 ++ [1, 1] ++ List.replicate 22 0).length = 4 * (4 * 4) :=
  ⟨rfl, by decide, by decide⟩

/-- C5 (amended): `reveal` recovers the declared length `L` from the first 32
stream bits and fails with the corruption error iff `L = 0` or
`L > pixels.length * 3 / 8` — a bound over all four channels of the raw
sample buffer (`pixels.length = 4 * W * H`), laxer than `capacity(W, H)`;
otherwise it returns a buffer of exactly `L` bytes (bits past the end of the
stream contribute zero bytes). -/
theorem reveal_length_validation_amended (pixels : List Nat) :
    ((∃ e, LSBEncoder.reveal pixels = .error e) ↔
      (LSBEncoder.declaredLength pixels = 0 ∨
        3 * pixels.length < 8 * LSBEncoder.declaredLength pixels)) ∧
    (∀ out, LSBEncoder.reveal pixels = .ok out →
      out.length = LSBEncoder.declaredLength pixels) := by
  by_cases h : LSBEncoder.declaredLength pixels = 0 ∨
      3 * pixels.length < 8 * LSBEncoder.declaredLength pixels
  · constructor
    · simp only [LSBEncoder.reveal, if_pos h]
      exact ⟨fun _ => h, fun _ => ⟨_, rfl⟩⟩
    · intro out hout
      rw [LSBEncoder.reveal, if_pos h] at hout
      exact absurd hout (by simp)
  · constructor
    · simp only [LSBEncoder.reveal, if_neg h]
      constructor
      · rintro ⟨e, he⟩
        exact absurd he (by simp)
      · intro hc
        exact absurd hc h
    · intro out hout
      rw [LSBEncoder.reveal, if_neg h] at hout
      have : out = padTo (LSBEncoder.declaredLength pixels)
          ((bytesFromBits ((LSBEncoder.lsbBits pixels).drop 32)).take
            (LSBEncoder.declaredLength pixels)) := by
        exact Except.ok.inj hout.symm
      rw [this]
      exact padTo_length _ _ (by rw [List.length_take]; omega)

/-- Witness for C5 at the counterexample buffer: `reveal` succeeds and the
returned buffer has exactly the declared length (3). -/
theorem reveal_length_validation_amended_witness :
    LSBEncoder.reveal (List.replicate 40 0 ++ [1, 1] ++ List.replicate 22 0) =
        .ok [0, 0, 0] ∧
      ([0, 0, 0] : List Nat).length =
        LSBEncoder.declaredLength (List.replicate 40 0 ++ [1, 1] ++ List.replicate 22 0) :=
  ⟨rfl, (reveal_length_validation_amended
      (List.replicate 40 0 ++ [1, 1] ++ List.replicate 22 0)).2 [0, 0, 0] rfl⟩

/-! ## Claim C10 — embed touches only least-significant bits -/

/-- C10: after a successful embed, every sample agrees with the cover sample
above the least significant bit, every alpha sample (`k % 4 = 3`) is
unchanged, and every sample whose R,G,B bit-stream position
`3 * (k / 4) + k % 4` lies at or past `32 + 8 * payload.length` is
unchanged. -/
theorem embed_touches_only_lsbs (width height : Nat) (pixels payload out : List Nat)
    (hpx : pixels.length = 4 * (width * height))
    (hok : LSBEncoder.hide width height pixels payload = .ok out) :
    ∀ k, k < pixels.length →
      out.getD k 0 / 2 = pixels.getD k 0 / 2 ∧
      (k % 4 = 3 → out.getD k 0 = pixels.getD k 0) ∧
      (32 + 8 * payload.length ≤ 3 * (k / 4) + k % 4 →
        out.getD k 0 = pixels.getD k 0) := by
  have hout : out = LSBEncoder.hideLoop pixels (LSBEncoder.hideBitstream payload) := by
    cases hc : LSBEncoder.hasCapacity width height payload.length with
    | false => simp [LSBEncoder.hide, hc] at hok
    | true =>
      rw [LSBEncoder.hide, if_neg (by simp [hc])] at hok
      exact (Except.ok.inj hok).symm
  have h4 : pixels.length % 4 = 0 := by omega
  intro k hk
  have hmain := LSBEncoder.hideLoop_getD pixels (LSBEncoder.hideBitstream payload) h4 k hk
  rw [← hout] at hmain
  rw [LSBEncoder.hideBitstream_length] at hmain
  by_cases hcond : k % 4 = 3 ∨ 32 + 8 * payload.length ≤ 3 * (k / 4) + k % 4
  · rw [if_pos hcond] at hmain
    rw [hmain]
    exact ⟨rfl, fun _ => rfl, fun _ => rfl⟩
  · rw [if_neg hcond] at hmain
    push_neg at hcond
    rw [hmain]
    have hbit : (LSBEncoder.hideBitstream payload).getD (3 * (k / 4) + k % 4) 0 < 2 :=
      LSBEncoder.getD_lt_two _ (bitsOfBytes_lt_two _) _
    refine ⟨LSBEncoder.writeLsb_div_two _ _ hbit, ?_, ?_⟩
    · intro hkk
      exact absurd hkk hcond.1
    · intro hpos
      exact absurd hpos (by omega)

/-- Witness for C10 on a 4×4 cover with a 1-byte payload: the first alpha
sample (index 3) is unchanged by the embed. -/
theorem embed_touches_only_lsbs_witness :
    (List.replicate 64 5).length = 4 * (4 * 4) ∧
    LSBEncoder.hide 4 4 (List.replicate 64 5) [255] =
        .ok (LSBEncoder.hideLoop (List.replicate 64 5) (LSBEncoder.hideBitstream [255])) ∧
      (LSBEncoder.hideLoop (List.replicate 64 5) (LSBEncoder.hideBitstream [255])).getD 3 0 =
        (List.replicate 64 5).getD 3 0 :=
  ⟨by rw [List.length_replicate], rfl,
    (embed_touches_only_lsbs 4 4 (List.replicate 64 5) [255] _
        (by rw [List.length_replicate]) rfl 3
        (by rw [List.length_replicate]; norm_num)).2.1 rfl⟩

/-! ## Chunk-reader lemmas -/

namespace ChunkedFileReader

theorem readChunksFrom_length (file : List Nat) (offset chunkIndex : Nat) :
    (readChunksFrom file offset chunkIndex).length =
      (file.length - offset + CHUNK_SIZE - 1) / CHUNK_SIZE := by
  induction offset, chunkIndex using readChunksFrom.induct file with
  | case1 offset chunkIndex h endOff ih =>
    rw [readChunksFrom, dif_pos h]
    simp only [List.length_cons]
    rw [show (readChunksFrom file (min (offset + CHUNK_SIZE) file.length)
          (chunkIndex + 1)).length =
        (file.length - min (offset + CHUNK_SIZE) file.length + CHUNK_SIZE - 1) / CHUNK_SIZE
        from ih]
    simp only [CHUNK_SIZE] at *
    omega
  | case2 offset chunkIndex h =>
    rw [readChunksFrom, dif_neg h]
    simp only [List.length_nil, CHUNK_SIZE]
    omega

theorem readChunksFrom_map_index (file : List Nat) (offset chunkIndex : Nat) :
    (readChunksFrom file offset chunkIndex).map Chunk.index =
      List.range' chunkIndex ((file.length - offset + CHUNK_SIZE - 1) / CHUNK_SIZE) := by
  induction offset, chunkIndex using readChunksFrom.induct file with
  | case1 offset chunkIndex h endOff ih =>
    rw [readChunksFrom, dif_pos h]
    simp only [List.map_cons]
    rw [show (readChunksFrom file (min (offset + CHUNK_SIZE) file.length)
          (chunkIndex + 1)).map Chunk.index =
        List.range' (chunkIndex + 1)
          ((file.length - min (offset + CHUNK_SIZE) file.length + CHUNK_SIZE - 1) / CHUNK_SIZE)
        from ih]
    have hc : (file.length - offset + CHUNK_SIZE - 1) / CHUNK_SIZE =
        (file.length - min (offset + CHUNK_SIZE) file.length + CHUNK_SIZE - 1) /
          CHUNK_SIZE + 1 := by
      simp only [CHUNK_SIZE] at *
      omega
    rw [hc, List.range'_succ]
  | case2 offset chunkIndex h =>
    rw [readChunksFrom, dif_neg h]
    have : (file.length - offset + CHUNK_SIZE - 1) / CHUNK_SIZE = 0 := by
      simp only [CHUNK_SIZE] at *
      omega
    rw [this]
    rfl

theorem readChunksFrom_map_size (file : List Nat) (offset chunkIndex : Nat) :
    (readChunksFrom file offset chunkIndex).map (fun c => c.data.length) =
      chunkSizes (file.length - offset) := by
  induction offset, chunkIndex using readChunksFrom.induct file with
  | case1 offset chunkIndex h endOff ih =>
    rw [readChunksFrom, dif_pos h]
    simp only [List.map_cons]
    rw [chunkSizes, dif_pos (by omega)]
    rw [show (readChunksFrom file (min (offset + CHUNK_SIZE) file.length)
          (chunkIndex + 1)).map (fun c => c.data.length) =
        chunkSizes (file.length - min (offset + CHUNK_SIZE) file.length)
        from ih]
    have hdata : ((file.drop offset).take (min (offset + CHUNK_SIZE) file.length - offset)).length =
        min CHUNK_SIZE (file.length - offset) := by
      rw [List.length_take, List.length_drop]
      simp only [CHUNK_SIZE] at *
      omega
    rw [hdata]
    congr 2
    simp only [CHUNK_SIZE] at *
    omega
  | case2 offset chunkIndex h =>
    rw [readChunksFrom, dif_neg h, chunkSizes, dif_neg (by omega)]
    rfl

theorem chunkSizes_length (n : Nat) :
    (chunkSizes n).length = (n + CHUNK_SIZE - 1) / CHUNK_SIZE := by
  induction n using Nat.strong_induction_on with
  | _ n ih =>
    by_cases h : 0 < n
    · rw [chunkSizes, dif_pos h]
      simp only [List.length_cons]
      rw [ih (n - min CHUNK_SIZE n) (by simp only [CHUNK_SIZE]; omega)]
      simp only [CHUNK_SIZE]
      omega
    · rw [chunkSizes, dif_neg h]
      simp only [List.length_nil, CHUNK_SIZE]
      omega

theorem chunkSizes_get_full (n i : Nat) (hi : i + 1 < (n + CHUNK_SIZE - 1) / CHUNK_SIZE) :
    (chunkSizes n)[i]? = some CHUNK_SIZE := by
  induction n using Nat.strong_induction_on generalizing i with
  | _ n ih =>
    have hn : CHUNK_SIZE < n := by
      simp only [CHUNK_SIZE] at *
      omega
    rw [chunkSizes, dif_pos (by omega)]
    have hmin : min CHUNK_SIZE n = CHUNK_SIZE := by omega
    rw [hmin]
    cases i with
    | zero => exact List.getElem?_cons_zero
    | succ i =>
      simp only [List.getElem?_cons_succ]
      exact ih (n - CHUNK_SIZE) (by simp only [CHUNK_SIZE] at *; omega) i
        (by simp only [CHUNK_SIZE] at *; omega)

set_option maxRecDepth 4000 in
theorem chunkSizes_get_last (n : Nat) (hn : 0 < n) :
    (chunkSizes n)[(n + CHUNK_SIZE - 1) / CHUNK_SIZE - 1]? =
      some (n - ((n + CHUNK_SIZE - 1) / CHUNK_SIZE - 1) * CHUNK_SIZE) := by
  induction n using Nat.strong_induction_on with
  | _ n ih =>
    rw [chunkSizes, dif_pos hn]
    by_cases hone : n ≤ CHUNK_SIZE
    · have ht : (n + CHUNK_SIZE - 1) / CHUNK_SIZE = 1 := by
        simp only [CHUNK_SIZE] at *
        omega
      rw [ht]
      simp only [Nat.sub_self, List.getElem?_cons_zero, Nat.zero_mul, Nat.sub_zero]
      congr 1
      omega
    · have hmin : min CHUNK_SIZE n = CHUNK_SIZE := by omega
      rw [hmin]
      have ht : (n + CHUNK_SIZE - 1) / CHUNK_SIZE =
          (n - CHUNK_SIZE + CHUNK_SIZE - 1) / CHUNK_SIZE + 1 := by
        simp only [CHUNK_SIZE] at *
        omega
      have htpos : 0 < (n - CHUNK_SIZE + CHUNK_SIZE - 1) / CHUNK_SIZE := by
        simp only [CHUNK_SIZE] at *
        omega
      rw [ht]
      have hidx : (n - CHUNK_SIZE + CHUNK_SIZE - 1) / CHUNK_SIZE + 1 - 1 =
          ((n - CHUNK_SIZE + CHUNK_SIZE - 1) / CHUNK_SIZE - 1) + 1 := by
        omega
      rw [hidx]
      simp only [List.getElem?_cons_succ]
      have hm1 : n - CHUNK_SIZE < n := by
        simp only [CHUNK_SIZE] at hone ⊢
        omega
      have hm2 : 0 < n - CHUNK_SIZE := by
        simp only [CHUNK_SIZE] at hone ⊢
        omega
      refine (ih (n - CHUNK_SIZE) hm1 hm2).trans ?_
      exact congrArg some (by simp only [CHUNK_SIZE] at hone ⊢; omega)

end ChunkedFileReader

/-! ## Claim C7 — chunk arithmetic -/

/-- C7: `totalChunks` is the ceiling of size over the 10 MiB chunk size; the
chunk sequence carries strictly increasing indices `0 .. totalChunks - 1`;
every chunk but the last is exactly `CHUNK_SIZE` bytes and the last is the
true remainder; in particular a 25 MiB source yields exactly three chunks of
10 MiB, 10 MiB and 5 MiB. -/
theorem chunk_arithmetic (file : List Nat) :
    ChunkedFileReader.totalChunks file = (file.length + CHUNK_SIZE - 1) / CHUNK_SIZE ∧
    (ChunkedFileReader.readChunks file).map ChunkedFileReader.Chunk.index =
      List.range (ChunkedFileReader.totalChunks file) ∧
    (∀ i, i + 1 < ChunkedFileReader.totalChunks file →
      ((ChunkedFileReader.readChunks file).map (fun c => c.data.length))[i]? =
        some CHUNK_SIZE) ∧
    (0 < ChunkedFileReader.totalChunks file →
      ((ChunkedFileReader.readChunks file).map
          (fun c => c.data.length))[ChunkedFileReader.totalChunks file - 1]? =
        some (file.length - (ChunkedFileReader.totalChunks file - 1) * CHUNK_SIZE)) ∧
    (file.length = 26214400 →
      (ChunkedFileReader.readChunks file).map (fun c => c.data.length) =
        [10485760, 10485760, 5242880]) := by
  have hsz : (ChunkedFileReader.readChunks file).map (fun c => c.data.length) =
      ChunkedFileReader.chunkSizes file.length := by
    rw [ChunkedFileReader.readChunks, ChunkedFileReader.readChunksFrom_map_size,
      Nat.sub_zero]
  refine ⟨rfl, ?_, ?_, ?_, ?_⟩
  · rw [ChunkedFileReader.readChunks, ChunkedFileReader.readChunksFrom_map_index,
      List.range_eq_range']
    congr 1
  · intro i hi
    rw [hsz]
    exact ChunkedFileReader.chunkSizes_get_full file.length i hi
  · intro ht
    rw [hsz]
    have hlen : 0 < file.length := by
      by_contra hno
      have : file.length = 0 := by omega
      rw [ChunkedFileReader.totalChunks, this] at ht
      simp only [CHUNK_SIZE] at ht
      omega
    exact ChunkedFileReader.chunkSizes_get_last file.length hlen
  · intro h25
    rw [hsz, h25]
    rw [ChunkedFileReader.chunkSizes, dif_pos (by norm_num)]
    rw [ChunkedFileReader.chunkSizes, dif_pos (by norm_num [CHUNK_SIZE])]
    rw [ChunkedFileReader.chunkSizes, dif_pos (by norm_num [CHUNK_SIZE])]
    rw [ChunkedFileReader.chunkSizes, dif_neg (by norm_num [CHUNK_SIZE])]
    norm_num [CHUNK_SIZE]

/-- Witness for C7 at a 25 MiB (26214400-byte) source: the three chunk sizes
are 10 MiB, 10 MiB and 5 MiB. -/
theorem chunk_arithmetic_witness :
    (List.replicate 26214400 0).length = 26214400 ∧
    (ChunkedFileReader.readChunks (List.replicate 26214400 0)).map
        (fun c => c.data.length) = [10485760, 10485760, 5242880] :=
  ⟨by rw [List.length_replicate],
    (chunk_arithmetic (List.replicate 26214400 0)).2.2.2.2 (by rw [List.length_replicate])⟩

/-! ## Claim C2 — nonce discipline (violated by the code) -/

/-- C2 (what the code actually does): the encryption loop of
`handleEncryption` seals every chunk with the one container IV — the nonce
sequence of a run is `totalChunks` copies of the same 12-byte value, so any
run of two or more chunks reuses a nonce under the same key.  At a 25 MiB
input (`totalChunks = 3`) three chunks share one nonce. -/
theorem nonce_reuse_across_chunks :
    (∀ file iv : List Nat,
      (Encryptor.handleEncryptionSeals file iv).map Encryptor.SealedChunk.iv =
        List.replicate (ChunkedFileReader.totalChunks file) iv) ∧
    ChunkedFileReader.totalChunks (List.replicate 26214400 0) = 3 := by
  constructor
  · intro file iv
    unfold Encryptor.handleEncryptionSeals
    rw [List.map_map]
    have : (Encryptor.SealedChunk.iv ∘ fun c : ChunkedFileReader.Chunk =>
        Encryptor.encryptChunk c.data iv) = fun _ => iv := rfl
    rw [this, List.map_const']
    congr 1
    rw [ChunkedFileReader.readChunks, ChunkedFileReader.readChunksFrom_length,
      ChunkedFileReader.totalChunks, Nat.sub_zero]
  · rw [ChunkedFileReader.totalChunks, List.length_replicate]
    decide

/-! ## Claim C9 — empty-password key derivation -/

/-- C9 counterexample: `KeyManager.deriveKey` performs no empty-password
check.  Invoked with the empty password and a 16-byte salt it does not fail —
it encodes the empty string to empty PBKDF2 key material and proceeds with
the derivation. -/
theorem deriveKey_accepts_empty_password :
    KeyManager.deriveKey [] (List.replicate 16 0) =
      .ok { material := [], salt := List.replicate 16 0, iterations := 100000 } := rfl

/-- C9 (amended): `deriveKey` itself never rejects a password — it derives
for any input, the empty string included.  Empty passwords are instead
handled upstream: `Encryptor.prepareKey` treats an empty password as falsy
and takes the password-less random-key branch, and `Decryptor.prepareKey`
rejects an absent/empty password for a password-protected container before
any derivation is requested. -/
theorem empty_password_handling_amended :
    (∀ password salt : List Nat, (KeyManager.deriveKey password salt).isOk = true) ∧
    (∀ salt : List Nat, Encryptor.prepareKey [] salt = .ok .randomKey) ∧
    (∀ (m : Metadata) (salt : List Nat), m.hasPassword = true →
      Decryptor.prepareKey m [] salt = .error "Password required for this file") := by
  refine ⟨fun p s => rfl, fun s => rfl, fun m s hm => ?_⟩
  rw [Decryptor.prepareKey, if_pos hm, if_pos rfl]

/-- Witness for C9 at a concrete password-protected metadata record. -/
theorem empty_password_handling_amended_witness :
    (Metadata.mk [] [] [] true 0 0 none).hasPassword = true ∧
    Decryptor.prepareKey (Metadata.mk [] [] [] true 0 0 none) [] (List.replicate 16 0) =
      .error "Password required for this file" :=
  ⟨rfl, empty_password_handling_amended.2.2 (Metadata.mk [] [] [] true 0 0 none)
    (List.replicate 16 0) rfl⟩

/-! ## UTF-8 lemmas -/

theorem utf8DecodeStep_consume (b0 : Nat) (rest : List Nat) :
    (utf8DecodeStep b0 rest).2.length ≤ rest.length := by
  simp only [utf8DecodeStep]
  repeat' split
  all_goals simp_all
  all_goals omega

theorem utf8DecodeLoop_fuel (fuel1 : Nat) : ∀ (bytes : List Nat) (fuel2 : Nat),
    bytes.length ≤ fuel1 → bytes.length ≤ fuel2 →
    utf8DecodeLoop fuel1 bytes = utf8DecodeLoop fuel2 bytes := by
  induction fuel1 with
  | zero =>
    intro bytes fuel2 h1 h2
    have : bytes = [] := by
      cases bytes
      · rfl
      · simp at h1
    subst this
    cases fuel2 <;> rfl
  | succ f ih =>
    intro bytes fuel2 h1 h2
    cases bytes with
    | nil => cases fuel2 <;> rfl
    | cons b0 rest =>
      have h2p : ∃ f2, fuel2 = f2 + 1 := by
        cases fuel2
        · simp at h2
        · exact ⟨_, rfl⟩
      obtain ⟨f2, rfl⟩ := h2p
      simp only [utf8DecodeLoop]
      congr 1
      exact ih _ _ (le_trans (utf8DecodeStep_consume b0 rest) (by simp at h1; omega))
        (le_trans (utf8DecodeStep_consume b0 rest) (by simp at h2; omega))

theorem utf8Decode_encodeChar_append (c : Nat) (hc1 : c < 1114112)
    (hc2 : ¬(55296 ≤ c ∧ c ≤ 57343)) (tail : List Nat) :
    utf8Decode (utf8EncodeChar c ++ tail) = c :: utf8Decode tail := by
  by_cases h1 : c < 128
  · rw [utf8EncodeChar, if_pos h1]
    simp only [List.cons_append, List.nil_append]
    rw [utf8Decode, List.length_cons]
    simp only [utf8DecodeLoop, utf8DecodeStep, if_pos h1]
    rfl
  · by_cases h2 : c < 2048
    · rw [utf8EncodeChar, if_neg h1, if_pos h2]
      simp only [List.cons_append, List.nil_append]
      rw [utf8Decode, List.length_cons, List.length_cons]
      simp only [utf8DecodeLoop, utf8DecodeStep]
      rw [if_neg (by omega), if_pos (by omega)]
      simp only [if_pos (show 128 ≤ 128 + c % 64 ∧ 128 + c % 64 ≤ 191 from by omega)]
      rw [show (192 + c / 64 - 192) * 64 + (128 + c % 64 - 128) = c from by omega]
      congr 1
      exact utf8DecodeLoop_fuel _ _ _ (by omega) (le_refl _)
    · by_cases h3 : c < 65536
      · rw [utf8EncodeChar, if_neg h1, if_neg h2, if_pos h3]
        simp only [List.cons_append, List.nil_append]
        rw [utf8Decode, List.length_cons, List.length_cons, List.length_cons]
        simp only [utf8DecodeLoop, utf8DecodeStep]
        rw [if_neg (by omega), if_neg (by omega), if_pos (by omega)]
        simp only [if_pos (show
          (utf8Lo3 (224 + c / 4096) ≤ 128 + c / 64 % 64 ∧
            128 + c / 64 % 64 ≤ utf8Hi3 (224 + c / 4096)) ∧
            128 ≤ 128 + c % 64 ∧ 128 + c % 64 ≤ 191 from by
          simp only [utf8Lo3, utf8Hi3]
          split_ifs <;> omega)]
        rw [show (224 + c / 4096 - 224) * 4096 + (128 + c / 64 % 64 - 128) * 64 +
          (128 + c % 64 - 128) = c from by omega]
        congr 1
        exact utf8DecodeLoop_fuel _ _ _ (by omega) (le_refl _)
      · rw [utf8EncodeChar, if_neg h1, if_neg h2, if_neg h3]
        simp only [List.cons_append, List.nil_append]
        rw [utf8Decode, List.length_cons, List.length_cons, List.length_cons,
          List.length_cons]
        simp only [utf8DecodeLoop, utf8DecodeStep]
        rw [if_neg (by omega), if_neg (by omega), if_neg (by omega), if_pos (by omega)]
        simp only [if_pos (show
          (utf8Lo4 (240 + c / 262144) ≤ 128 + c / 4096 % 64 ∧
            128 + c / 4096 % 64 ≤ utf8Hi4 (240 + c / 262144)) ∧
            (128 ≤ 128 + c / 64 % 64 ∧ 128 + c / 64 % 64 ≤ 191) ∧
            128 ≤ 128 + c % 64 ∧ 128 + c % 64 ≤ 191 from by
          simp only [utf8Lo4, utf8Hi4]
          split_ifs <;> omega)]
        rw [show (240 + c / 262144 - 240) * 262144 + (128 + c / 4096 % 64 - 128) * 4096 +
          (128 + c / 64 % 64 - 128) * 64 + (128 + c % 64 - 128) = c from by omega]
        congr 1
        exact utf8DecodeLoop_fuel _ _ _ (by omega) (le_refl _)

theorem utf8Decode_utf8Encode (s : List Nat)
    (h : ∀ c ∈ s, c < 1114112 ∧ ¬(55296 ≤ c ∧ c ≤ 57343)) :
    utf8Decode (utf8Encode s) = s := by
  induction s with
  | nil => rfl
  | cons c cs ih =>
    have hc := h c (by simp)
    rw [utf8Encode, List.flatMap_cons]
    rw [utf8Decode_encodeChar_append c hc.1 hc.2]
    exact congrArg (fun l => c :: l) (ih fun x hx => h x (by simp [hx]))

/-! ## JSON printer and parser round-trip lemmas -/

theorem hexVal_digit (d : Nat) (hd : d < 16) :
    hexVal (if d < 10 then 48 + d else 87 + d) = some d := by
  rw [hexVal]
  split_ifs <;> first | (congr 1; omega) | omega

theorem escChar_low (c : Nat) (h34 : ¬c = 34) (h92 : ¬c = 92) (h8 : ¬c = 8) (h9 : ¬c = 9)
    (h10 : ¬c = 10) (h12 : ¬c = 12) (h13 : ¬c = 13) (hlow : c < 32) :
    escChar c = [92, 117, 48, 48, if c / 16 < 10 then 48 + c / 16 else 87 + c / 16,
      if c % 16 < 10 then 48 + c % 16 else 87 + c % 16] := by
  rw [escChar]
  rw [if_neg h34, if_neg h92, if_neg h8, if_neg h9, if_neg h10, if_neg h12, if_neg h13,
    if_pos hlow]

theorem escChar_plain (c : Nat) (h34 : ¬c = 34) (h92 : ¬c = 92) (hlow : ¬c < 32) :
    escChar c = [c] := by
  rw [escChar]
  rw [if_neg h34, if_neg h92, if_neg (by omega), if_neg (by omega), if_neg (by omega),
    if_neg (by omega), if_neg (by omega), if_neg hlow]

theorem parseStringBody_print (s : List Nat) (rest : List Nat) :
    parseStringBody (s.flatMap escChar ++ 34 :: rest) = some (s, rest) := by
  induction s with
  | nil =>
    simp only [List.flatMap_nil, List.nil_append]
    rw [parseStringBody.eq_def]
    simp
  | cons c cs ih =>
    simp only [List.flatMap_cons, List.append_assoc]
    by_cases h34 : c = 34
    · subst h34
      simp only [show escChar 34 = [92, 34] from rfl, List.cons_append, List.nil_append]
      rw [parseStringBody.eq_def]
      simp [ih]
    · by_cases h92 : c = 92
      · subst h92
        simp only [show escChar 92 = [92, 92] from rfl, List.cons_append, List.nil_append]
        rw [parseStringBody.eq_def]
        simp [ih]
      · by_cases h8 : c = 8
        · subst h8
          simp only [show escChar 8 = [92, 98] from rfl, List.cons_append, List.nil_append]
          rw [parseStringBody.eq_def]
          simp [ih]
        · by_cases h9 : c = 9
          · subst h9
            simp only [show escChar 9 = [92, 116] from rfl, List.cons_append,
              List.nil_append]
            rw [parseStringBody.eq_def]
            simp [ih]
          · by_cases h10 : c = 10
            · subst h10
              simp only [show escChar 10 = [92, 110] from rfl, List.cons_append,
                List.nil_append]
              rw [parseStringBody.eq_def]
              simp [ih]
            · by_cases h12 : c = 12
              · subst h12
                simp only [show escChar 12 = [92, 102] from rfl, List.cons_append,
                  List.nil_append]
                rw [parseStringBody.eq_def]
                simp [ih]
              · by_cases h13 : c = 13
                · subst h13
                  simp only [show escChar 13 = [92, 114] from rfl, List.cons_append,
                    List.nil_append]
                  rw [parseStringBody.eq_def]
                  simp [ih]
                · by_cases hlow : c < 32
                  · rw [escChar_low c h34 h92 h8 h9 h10 h12 h13 hlow]
                    simp only [List.cons_append, List.nil_append]
                    rw [parseStringBody.eq_def]
                    have e1 : hexVal (if c / 16 < 10 then 48 + c / 16 else 87 + c / 16) =
                        some (c / 16) := hexVal_digit _ (by omega)
                    have e2 : hexVal (if c % 16 < 10 then 48 + c % 16 else 87 + c % 16) =
                        some (c % 16) := hexVal_digit _ (by omega)
                    simp [e1, e2, ih, show hexVal 48 = some 0 from rfl]
                    omega
                  · rw [escChar_plain c h34 h92 hlow]
                    simp only [List.cons_append, List.nil_append]
                    rw [parseStringBody.eq_def]
                    simp [ih, h34, h92, hlow]

theorem digitsRevAux_fuel (n : Nat) : ∀ fuel, n ≤ fuel → digitsRevAux fuel n = digitsRevAux n n := by
  induction n using Nat.strong_induction_on with
  | _ n ih =>
    intro fuel hf
    cases n with
    | zero => cases fuel <;> rfl
    | succ m =>
      have hf1 : ∃ f, fuel = f + 1 := by
        cases fuel
        · omega
        · exact ⟨_, rfl⟩
      obtain ⟨f, rfl⟩ := hf1
      rw [digitsRevAux, digitsRevAux]
      congr 1
      rw [ih ((m + 1) / 10) (by omega) f (by omega),
        ih ((m + 1) / 10) (by omega) m (by omega)]

theorem natToDigits_small (n : Nat) (h : n ≤ 9) : natToDigits n = [48 + n] := by
  cases n with
  | zero => rfl
  | succ m =>
    rw [natToDigits, if_neg (by omega), digitsRevAux]
    rw [show (m + 1) / 10 = 0 from by omega]
    rw [show digitsRevAux m 0 = [] from by cases m <;> rfl]
    rw [show (m + 1) % 10 = m + 1 from by omega]
    rfl

theorem natToDigits_split (n : Nat) (h : 10 ≤ n) :
    natToDigits n = natToDigits (n / 10) ++ [48 + n % 10] := by
  obtain ⟨m, rfl⟩ : ∃ m, n = m + 1 := ⟨n - 1, by omega⟩
  rw [natToDigits, if_neg (by omega), digitsRevAux]
  rw [digitsRevAux_fuel ((m + 1) / 10) m (by omega)]
  rw [List.reverse_cons]
  congr 1
  rw [natToDigits, if_neg (by omega)]

theorem natToDigits_digits (n : Nat) : ∀ d ∈ natToDigits n, 48 ≤ d ∧ d ≤ 57 := by
  induction n using Nat.strong_induction_on with
  | _ n ih =>
    by_cases h : n ≤ 9
    · rw [natToDigits_small n h]
      intro d hd
      simp at hd
      omega
    · rw [natToDigits_split n (by omega)]
      intro d hd
      rw [List.mem_append] at hd
      rcases hd with hd | hd
      · exact ih (n / 10) (by omega) d hd
      · simp at hd
        omega

theorem natToDigits_ne_nil (n : Nat) : natToDigits n ≠ [] := by
  by_cases h : n ≤ 9
  · rw [natToDigits_small n h]
    simp
  · rw [natToDigits_split n (by omega)]
    simp

theorem natToDigits_foldl (n : Nat) :
    (natToDigits n).foldl (fun a d => a * 10 + (d - 48)) 0 = n := by
  induction n using Nat.strong_induction_on with
  | _ n ih =>
    by_cases h : n ≤ 9
    · rw [natToDigits_small n h]
      simp
    · rw [natToDigits_split n (by omega), List.foldl_append]
      rw [ih (n / 10) (by omega)]
      simp only [List.foldl_cons, List.foldl_nil]
      omega

theorem parseDigits_run (ds : List Nat) (rest : List Nat) (acc : Nat)
    (hds : ∀ d ∈ ds, 48 ≤ d ∧ d ≤ 57)
    (hrest : ∀ r0, rest.head? = some r0 → ¬(48 ≤ r0 ∧ r0 ≤ 57)) :
    parseDigits (ds ++ rest) acc = (ds.foldl (fun a d => a * 10 + (d - 48)) acc, rest) := by
  induction ds generalizing acc with
  | nil =>
    simp only [List.nil_append, List.foldl_nil]
    cases rest with
    | nil => rfl
    | cons r0 r =>
      rw [parseDigits, if_neg (hrest r0 rfl)]
  | cons d ds ih =>
    simp only [List.cons_append, List.foldl_cons]
    rw [parseDigits, if_pos (hds d (by simp))]
    exact ih _ fun x hx => hds x (by simp [hx])

theorem skipWs_cons (c : Nat) (rest : List Nat)
    (h : ¬(c = 32 ∨ c = 9 ∨ c = 10 ∨ c = 13)) : skipWs (c :: rest) = c :: rest := by
  rw [skipWs, if_neg (by simp [jsonWs]; omega)]

theorem parseValue_nat (fuel n : Nat) (rest : List Nat)
    (hrest : ∀ r0, rest.head? = some r0 → ¬(48 ≤ r0 ∧ r0 ≤ 57)) :
    parseValue (fuel + 1) (natToDigits n ++ rest) = some (.jnum n, rest) := by
  cases hnd : natToDigits n with
  | nil => exact absurd hnd (natToDigits_ne_nil n)
  | cons d ds =>
    have hd : 48 ≤ d ∧ d ≤ 57 := natToDigits_digits n d (by rw [hnd]; simp)
    have hds : ∀ x ∈ ds, 48 ≤ x ∧ x ≤ 57 := fun x hx =>
      natToDigits_digits n x (by rw [hnd]; simp [hx])
    simp only [List.cons_append]
    have e1 : ¬d = 34 := by omega
    have e2 : ¬d = 123 := by omega
    have e3 : ¬d = 91 := by omega
    have e4 : ¬d = 116 := by omega
    have e5 : ¬d = 102 := by omega
    have e6 : ¬d = 110 := by omega
    rw [parseValue, skipWs_cons d _ (by omega)]
    simp only [e1, e2, e3, e4, e5, e6, hd, if_neg, if_pos, if_true, if_false,
      and_self, ite_true, ite_false, reduceIte]
    rw [parseDigits_run ds rest (d - 48) hds hrest]
    have hfold : ds.foldl (fun a x => a * 10 + (x - 48)) (d - 48) = n := by
      have h0 := natToDigits_foldl n
      rw [hnd] at h0
      simpa using h0
    rw [hfold]

theorem parseValue_str (fuel : Nat) (s rest : List Nat) :
    parseValue (fuel + 1) (printStr s ++ rest) = some (.jstr s, rest) := by
  rw [printStr]
  simp only [List.cons_append, List.append_assoc, List.singleton_append]
  rw [parseValue, skipWs_cons 34 _ (by omega)]
  simp only [reduceIte]
  rw [parseStringBody_print]
  rfl

theorem parseValue_bool (fuel : Nat) (b : Bool) (rest : List Nat) :
    parseValue (fuel + 1) (printBool b ++ rest) = some (.jbool b, rest) := by
  cases b <;>
    simp [printBool, parseValue, skipWs, jsonWs]

theorem parseValue_null (fuel : Nat) (rest : List Nat) :
    parseValue (fuel + 1) ([110, 117, 108, 108] ++ rest) = some (.jnull, rest) := by
  simp [parseValue, skipWs, jsonWs]

theorem printElems_head_digit (ks : List Nat) (hne : ks ≠ []) :
    ∃ d tail, printElems ks = d :: tail ∧ 48 ≤ d ∧ d ≤ 57 := by
  cases ks with
  | nil => exact absurd rfl hne
  | cons k ks =>
    have hd : ∃ d ds, natToDigits k = d :: ds ∧ 48 ≤ d ∧ d ≤ 57 := by
      cases hnd : natToDigits k with
      | nil => exact absurd hnd (natToDigits_ne_nil k)
      | cons d ds =>
        exact ⟨d, ds, rfl, natToDigits_digits k d (by rw [hnd]; simp)⟩
    obtain ⟨d, ds, hd1, hd2, hd3⟩ := hd
    cases ks with
    | nil => exact ⟨d, ds, by simp [printElems, hd1], hd2, hd3⟩
    | cons k2 ks2 =>
      exact ⟨d, ds ++ 44 :: printElems (k2 :: ks2),
        by simp [printElems, hd1], hd2, hd3⟩

theorem parseElements_nats (ks : List Nat) (hne : ks ≠ []) (rest : List Nat) :
    ∀ fuel, parseElements (fuel + ks.length + 1) (printElems ks ++ 93 :: rest) =
      some (ks.map Json.jnum, rest) := by
  induction ks with
  | nil => exact absurd rfl hne
  | cons k ks ih =>
    intro fuel
    cases ks with
    | nil =>
      simp only [List.length_cons, List.length_nil, Nat.zero_add]
      rw [show printElems [k] = natToDigits k from rfl]
      rw [parseElements]
      rw [parseValue_nat fuel k (93 :: rest) (by intro r0 h0; simp at h0; omega)]
      simp [skipWs_cons 93 rest (by omega)]
    | cons k2 ks2 =>
      simp only [List.length_cons]
      rw [show fuel + (ks2.length + 1 + 1) + 1 = (fuel + (ks2.length + 1) + 1) + 1 from by
        omega]
      rw [show printElems (k :: k2 :: ks2) = natToDigits k ++ 44 :: printElems (k2 :: ks2)
        from rfl]
      simp only [List.append_assoc, List.cons_append]
      rw [parseElements]
      rw [parseValue_nat (fuel + (ks2.length + 1)) k
        (44 :: (printElems (k2 :: ks2) ++ 93 :: rest))
        (by intro r0 h0; simp at h0; omega)]
      simp only [skipWs_cons 44 (printElems (k2 :: ks2) ++ 93 :: rest) (by omega)]
      obtain ⟨d, tail, hdt, hd1, hd2⟩ := printElems_head_digit (k2 :: ks2) (by simp)
      rw [hdt]
      simp only [List.cons_append]
      rw [skipWs_cons d _ (by omega)]
      rw [← List.cons_append, ← hdt]
      have ihx := ih (by simp) fuel
      simp only [List.length_cons] at ihx
      rw [ihx]
      rfl

theorem parseValue_keyArr (fuel : Nat) (ks : List Nat) (hne : ks ≠ []) (rest : List Nat) :
    parseValue (fuel + ks.length + 1 + 1) (printKeyField (some ks) ++ rest) =
      some (.jarr (ks.map .jnum), rest) := by
  rw [show printKeyField (some ks) = 91 :: printElems ks ++ [93] from rfl]
  simp only [List.cons_append, List.append_assoc, List.singleton_append, List.nil_append]
  rw [parseValue, skipWs_cons 91 _ (by omega)]
  have e1 : ¬(91 : Nat) = 34 := by omega
  have e2 : ¬(91 : Nat) = 123 := by omega
  simp only [e1, e2, if_neg, if_pos, if_true, if_false, and_self, ite_true, ite_false,
    reduceIte]
  obtain ⟨d, tail, hdt, hd1, hd2⟩ := printElems_head_digit ks hne
  rw [hdt]
  simp only [List.cons_append]
  rw [skipWs_cons d _ (by omega)]
  split
  · rename_i r2 heq
    simp only [List.cons.injEq] at heq
    omega
  · rw [← List.cons_append, ← hdt, parseElements_nats ks hne rest fuel]
    rfl

theorem parseValue_keyNull (fuel : Nat) (rest : List Nat) :
    parseValue (fuel + 1) (printKeyField none ++ rest) = some (.jnull, rest) := by
  simp [printKeyField, parseValue, skipWs, jsonWs]

theorem parseMembers_last (fuel : Nat) (key : List Nat) (v : Json) (vb rest : List Nat)
    (hv : parseValue fuel (vb ++ 125 :: rest) = some (v, 125 :: rest)) :
    parseMembers (fuel + 1) (printStr key ++ 58 :: (vb ++ 125 :: rest)) =
      some ([(key, v)], rest) := by
  rw [printStr]
  simp only [List.cons_append, List.append_assoc, List.singleton_append]
  rw [parseMembers]
  simp only [List.nil_append]
  rw [parseStringBody_print key (58 :: (vb ++ 125 :: rest))]
  simp only [skipWs_cons 58 _ (by omega)]
  rw [hv]
  simp only [skipWs_cons 125 _ (by omega)]

theorem parseMembers_cons (fuel : Nat) (key : List Nat) (v : Json) (vb next rest : List Nat)
    (ms : List (List Nat × Json))
    (hv : parseValue fuel (vb ++ 44 :: next) = some (v, 44 :: next))
    (hskip : skipWs next = next)
    (hrec : parseMembers fuel next = some (ms, rest)) :
    parseMembers (fuel + 1) (printStr key ++ 58 :: (vb ++ 44 :: next)) =
      some ((key, v) :: ms, rest) := by
  rw [printStr]
  simp only [List.cons_append, List.append_assoc, List.singleton_append]
  rw [parseMembers]
  simp only [List.nil_append]
  rw [parseStringBody_print key (58 :: (vb ++ 44 :: next))]
  simp only [skipWs_cons 58 _ (by omega)]
  rw [hv]
  simp only [skipWs_cons 44 _ (by omega)]
  rw [hskip, hrec]
  rfl


theorem parseValue_keyField (fuel : Nat) (key : Option (List Nat)) (rest : List Nat) :
    parseValue (fuel + keyCost key + 2) (printKeyField key ++ rest) =
      some (keyJsonVal key, rest) := by
  match key with
  | none =>
    rw [show fuel + keyCost none + 2 = (fuel + 1) + 1 from by simp [keyCost]]
    exact parseValue_keyNull (fuel + 1) rest
  | some [] =>
    rw [show fuel + keyCost (some []) + 2 = fuel + 2 from by simp [keyCost]]
    show parseValue (fuel + 2) ([91, 93] ++ rest) = some (.jarr [], rest)
    rw [show fuel + 2 = (fuel + 1) + 1 from by omega]
    simp [parseValue, skipWs, jsonWs]
  | some (k :: ks) =>
    rw [show fuel + keyCost (some (k :: ks)) + 2 = fuel + (k :: ks).length + 1 + 1 from by
      simp only [keyCost]]
    exact parseValue_keyArr fuel (k :: ks) (by simp) rest

theorem skipWs_printStr (s : List Nat) (x : List Nat) :
    skipWs (printStr s ++ x) = printStr s ++ x := by
  rw [printStr]
  simp only [List.cons_append]
  exact skipWs_cons 34 _ (by omega)

theorem parseValue_metadata (fuel : Nat) (m : Metadata) (rest : List Nat) :
    parseValue (fuel + keyCost m.key + 10) (printMetadataJson m ++ rest) =
      some (metadataToJson m, rest) := by
  have h7 : parseMembers (fuel + keyCost m.key + 3)
      (printStr keyKey ++ 58 :: (printKeyField m.key ++ 125 :: rest)) =
      some ([(keyKey, keyJsonVal m.key)], rest) := by
    rw [show fuel + keyCost m.key + 3 = (fuel + keyCost m.key + 2) + 1 from by omega]
    exact parseMembers_last _ _ _ _ _ (parseValue_keyField fuel m.key (125 :: rest))
  have hv6 : parseValue (fuel + keyCost m.key + 3)
      (natToDigits m.timestamp ++
        44 :: (printStr keyKey ++ 58 :: (printKeyField m.key ++ 125 :: rest))) =
      some (.jnum m.timestamp,
        44 :: (printStr keyKey ++ 58 :: (printKeyField m.key ++ 125 :: rest))) := by
    rw [show fuel + keyCost m.key + 3 = (fuel + keyCost m.key + 2) + 1 from by omega]
    exact parseValue_nat _ _ _ (by intro r0 h0; simp at h0; omega)
  have h6 : parseMembers (fuel + keyCost m.key + 4)
      (printStr timestampKey ++ 58 :: (natToDigits m.timestamp ++
        44 :: (printStr keyKey ++ 58 :: (printKeyField m.key ++ 125 :: rest)))) =
      some ([(timestampKey, .jnum m.timestamp), (keyKey, keyJsonVal m.key)], rest) := by
    rw [show fuel + keyCost m.key + 4 = (fuel + keyCost m.key + 3) + 1 from by omega]
    exact parseMembers_cons _ _ _ _ _ _ _ hv6 (skipWs_printStr keyKey _) h7
  have hv5 : parseValue (fuel + keyCost m.key + 4)
      (natToDigits m.chunksCount ++
        44 :: (printStr timestampKey ++ 58 :: (natToDigits m.timestamp ++
          44 :: (printStr keyKey ++ 58 :: (printKeyField m.key ++ 125 :: rest))))) =
      some (.jnum m.chunksCount,
        44 :: (printStr timestampKey ++ 58 :: (natToDigits m.timestamp ++
          44 :: (printStr keyKey ++ 58 :: (printKeyField m.key ++ 125 :: rest))))) := by
    rw [show fuel + keyCost m.key + 4 = (fuel + keyCost m.key + 3) + 1 from by omega]
    exact parseValue_nat _ _ _ (by intro r0 h0; simp at h0; omega)
  have h5 : parseMembers (fuel + keyCost m.key + 5)
      (printStr chunksCountKey ++ 58 :: (natToDigits m.chunksCount ++
        44 :: (printStr timestampKey ++ 58 :: (natToDigits m.timestamp ++
          44 :: (printStr keyKey ++ 58 :: (printKeyField m.key ++ 125 :: rest)))))) =
      some ([(chunksCountKey, .jnum m.chunksCount), (timestampKey, .jnum m.timestamp),
        (keyKey, keyJsonVal m.key)], rest) := by
    rw [show fuel + keyCost m.key + 5 = (fuel + keyCost m.key + 4) + 1 from by omega]
    exact parseMembers_cons _ _ _ _ _ _ _ hv5 (skipWs_printStr timestampKey _) h6
  have hv4 : parseValue (fuel + keyCost m.key + 5)
      (printBool m.hasPassword ++
        44 :: (printStr chunksCountKey ++ 58 :: (natToDigits m.chunksCount ++
          44 :: (printStr timestampKey ++ 58 :: (natToDigits m.timestamp ++
            44 :: (printStr keyKey ++ 58 :: (printKeyField m.key ++ 125 :: rest))))))) =
      some (.jbool m.hasPassword,
        44 :: (printStr chunksCountKey ++ 58 :: (natToDigits m.chunksCount ++
          44 :: (printStr timestampKey ++ 58 :: (natToDigits m.timestamp ++
            44 :: (printStr keyKey ++ 58 :: (printKeyField m.key ++ 125 :: rest))))))) := by
    rw [show fuel + keyCost m.key + 5 = (fuel + keyCost m.key + 4) + 1 from by omega]
    exact parseValue_bool _ _ _
  have h4 : parseMembers (fuel + keyCost m.key + 6)
      (printStr hasPasswordKey ++ 58 :: (printBool m.hasPassword ++
        44 :: (printStr chunksCountKey ++ 58 :: (natToDigits m.chunksCount ++
          44 :: (printStr timestampKey ++ 58 :: (natToDigits m.timestamp ++
            44 :: (printStr keyKey ++ 58 :: (printKeyField m.key ++ 125 :: rest)))))))) =
      some ([(hasPasswordKey, .jbool m.hasPassword),
        (chunksCountKey, .jnum m.chunksCount), (timestampKey, .jnum m.timestamp),
        (keyKey, keyJsonVal m.key)], rest) := by
    rw [show fuel + keyCost m.key + 6 = (fuel + keyCost m.key + 5) + 1 from by omega]
    exact parseMembers_cons _ _ _ _ _ _ _ hv4 (skipWs_printStr chunksCountKey _) h5
  have hv3 : parseValue (fuel + keyCost m.key + 6)
      (printStr m.mimeType ++
        44 :: (printStr hasPasswordKey ++ 58 :: (printBool m.hasPassword ++
          44 :: (printStr chunksCountKey ++ 58 :: (natToDigits m.chunksCount ++
            44 :: (printStr timestampKey ++ 58 :: (natToDigits m.timestamp ++
              44 :: (printStr keyKey ++ 58 :: (printKeyField m.key ++ 125 :: rest))))))))) =
      some (.jstr m.mimeType,
        44 :: (printStr hasPasswordKey ++ 58 :: (printBool m.hasPassword ++
          44 :: (printStr chunksCountKey ++ 58 :: (natToDigits m.chunksCount ++
            44 :: (printStr timestampKey ++ 58 :: (natToDigits m.timestamp ++
              44 :: (printStr keyKey ++ 58 :: (printKeyField m.key ++ 125 :: rest))))))))) := by
    rw [show fuel + keyCost m.key + 6 = (fuel + keyCost m.key + 5) + 1 from by omega]
    exact parseValue_str _ _ _
  have h3 : parseMembers (fuel + keyCost m.key + 7)
      (printStr mimeTypeKey ++ 58 :: (printStr m.mimeType ++
        44 :: (printStr hasPasswordKey ++ 58 :: (printBool m.hasPassword ++
          44 :: (printStr chunksCountKey ++ 58 :: (natToDigits m.chunksCount ++
            44 :: (printStr timestampKey ++ 58 :: (natToDigits m.timestamp ++
              44 :: (printStr keyKey ++ 58 :: (printKeyField m.key ++ 125 :: rest)))))))))) =
      some ([(mimeTypeKey, .jstr m.mimeType), (hasPasswordKey, .jbool m.hasPassword),
        (chunksCountKey, .jnum m.chunksCount), (timestampKey, .jnum m.timestamp),
        (keyKey, keyJsonVal m.key)], rest) := by
    rw [show fuel + keyCost m.key + 7 = (fuel + keyCost m.key + 6) + 1 from by omega]
    exact parseMembers_cons _ _ _ _ _ _ _ hv3 (skipWs_printStr hasPasswordKey _) h4
  have hv2 : parseValue (fuel + keyCost m.key + 7)
      (printStr m.filename ++
        44 :: (printStr mimeTypeKey ++ 58 :: (printStr m.mimeType ++
          44 :: (printStr hasPasswordKey ++ 58 :: (printBool m.hasPassword ++
            44 :: (printStr chunksCountKey ++ 58 :: (natToDigits m.chunksCount ++
              44 :: (printStr timestampKey ++ 58 :: (natToDigits m.timestamp ++
                44 :: (printStr keyKey ++ 58 :: (printKeyField m.key ++ 125 :: rest)))))))))))
      = some (.jstr m.filename,
        44 :: (printStr mimeTypeKey ++ 58 :: (printStr m.mimeType ++
          44 :: (printStr hasPasswordKey ++ 58 :: (printBool m.hasPassword ++
            44 :: (printStr chunksCountKey ++ 58 :: (natToDigits m.chunksCount ++
              44 :: (printStr timestampKey ++ 58 :: (natToDigits m.timestamp ++
                44 :: (printStr keyKey ++ 58 :: (printKeyField m.key ++ 125 :: rest)))))))))))
      := by
    rw [show fuel + keyCost m.key + 7 = (fuel + keyCost m.key + 6) + 1 from by omega]
    exact parseValue_str _ _ _
  have h2 : parseMembers (fuel + keyCost m.key + 8)
      (printStr filenameKey ++ 58 :: (printStr m.filename ++
        44 :: (printStr mimeTypeKey ++ 58 :: (printStr m.mimeType ++
          44 :: (printStr hasPasswordKey ++ 58 :: (printBool m.hasPassword ++
            44 :: (printStr chunksCountKey ++ 58 :: (natToDigits m.chunksCount ++
              44 :: (printStr timestampKey ++ 58 :: (natToDigits m.timestamp ++
                44 :: (printStr keyKey ++ 58 :: (printKeyField m.key ++ 125 :: rest))))))))))))
      = some ([(filenameKey, .jstr m.filename), (mimeTypeKey, .jstr m.mimeType),
        (hasPasswordKey, .jbool m.hasPassword), (chunksCountKey, .jnum m.chunksCount),
        (timestampKey, .jnum m.timestamp), (keyKey, keyJsonVal m.key)], rest) := by
    rw [show fuel + keyCost m.key + 8 = (fuel + keyCost m.key + 7) + 1 from by omega]
    exact parseMembers_cons _ _ _ _ _ _ _ hv2 (skipWs_printStr mimeTypeKey _) h3
  have hv1 : parseValue (fuel + keyCost m.key + 8)
      (printStr m.version ++
        44 :: (printStr filenameKey ++ 58 :: (printStr m.filename ++
          44 :: (printStr mimeTypeKey ++ 58 :: (printStr m.mimeType ++
            44 :: (printStr hasPasswordKey ++ 58 :: (printBool m.hasPassword ++
              44 :: (printStr chunksCountKey ++ 58 :: (natToDigits m.chunksCount ++
                44 :: (printStr timestampKey ++ 58 :: (natToDigits m.timestamp ++
                  44 :: (printStr keyKey ++ 58 :: (printKeyField m.key ++ 125 :: rest)))))))))))))
      = some (.jstr m.version,
        44 :: (printStr filenameKey ++ 58 :: (printStr m.filename ++
          44 :: (printStr mimeTypeKey ++ 58 :: (printStr m.mimeType ++
            44 :: (printStr hasPasswordKey ++ 58 :: (printBool m.hasPassword ++
              44 :: (printStr chunksCountKey ++ 58 :: (natToDigits m.chunksCount ++
                44 :: (printStr timestampKey ++ 58 :: (natToDigits m.timestamp ++
                  44 :: (printStr keyKey ++ 58 :: (printKeyField m.key ++ 125 :: rest)))))))))))))
      := by
    rw [show fuel + keyCost m.key + 8 = (fuel + keyCost m.key + 7) + 1 from by omega]
    exact parseValue_str _ _ _
  have h1 : parseMembers (fuel + keyCost m.key + 9)
      (printStr versionKey ++ 58 :: (printStr m.version ++
        44 :: (printStr filenameKey ++ 58 :: (printStr m.filename ++
          44 :: (printStr mimeTypeKey ++ 58 :: (printStr m.mimeType ++
            44 :: (printStr hasPasswordKey ++ 58 :: (printBool m.hasPassword ++
              44 :: (printStr chunksCountKey ++ 58 :: (natToDigits m.chunksCount ++
                44 :: (printStr timestampKey ++ 58 :: (natToDigits m.timestamp ++
                  44 :: (printStr keyKey ++ 58 :: (printKeyField m.key ++ 125 :: rest))))))))))))))
      = some ([(versionKey, .jstr m.version), (filenameKey, .jstr m.filename),
        (mimeTypeKey, .jstr m.mimeType), (hasPasswordKey, .jbool m.hasPassword),
        (chunksCountKey, .jnum m.chunksCount), (timestampKey, .jnum m.timestamp),
        (keyKey, keyJsonVal m.key)], rest) := by
    rw [show fuel + keyCost m.key + 9 = (fuel + keyCost m.key + 8) + 1 from by omega]
    exact parseMembers_cons _ _ _ _ _ _ _ hv1 (skipWs_printStr filenameKey _) h2
  rw [printMetadataJson]
  simp only [List.append_assoc, List.cons_append, List.singleton_append, List.nil_append]
  rw [show fuel + keyCost m.key + 10 = (fuel + keyCost m.key + 9) + 1 from by omega]
  rw [parseValue, skipWs_cons 123 _ (by omega)]
  have e1 : ¬(123 : Nat) = 34 := by omega
  simp only [e1, if_neg, if_pos, if_true, if_false, ite_true, ite_false, reduceIte]
  rw [skipWs_printStr versionKey _]
  split
  · rename_i r2 heq
    rw [printStr] at heq
    simp only [List.cons_append, List.cons.injEq] at heq
    omega
  · rw [h1]
    rfl

theorem printStr_length (s : List Nat) : 2 ≤ (printStr s).length := by
  simp [printStr]

theorem printElems_length (ks : List Nat) : ks.length ≤ (printElems ks).length := by
  induction ks with
  | nil => simp [printElems]
  | cons k ks ih =>
    have h1 : 1 ≤ (natToDigits k).length :=
      List.length_pos.mpr (natToDigits_ne_nil k)
    cases ks with
    | nil => simpa [printElems] using h1
    | cons k2 ks2 =>
      rw [show printElems (k :: k2 :: ks2) = natToDigits k ++ 44 :: printElems (k2 :: ks2)
        from rfl]
      simp only [List.length_append, List.length_cons] at *
      omega

theorem printKeyField_length (key : Option (List Nat)) :
    keyCost key + 2 ≤ (printKeyField key).length := by
  cases key with
  | none => simp [printKeyField, keyCost]
  | some ks =>
    have := printElems_length ks
    simp only [printKeyField, keyCost, List.length_cons, List.length_append,
      List.length_singleton] at *
    omega

theorem printMetadataJson_length (m : Metadata) :
    keyCost m.key + 9 ≤ (printMetadataJson m).length := by
  have h1 := printKeyField_length m.key
  have h2 := printStr_length versionKey
  have h3 := printStr_length filenameKey
  have h4 := printStr_length mimeTypeKey
  simp only [printMetadataJson, List.length_append, List.length_cons, List.length_nil,
    List.length_singleton] at *
  omega

theorem parseValue_metadata_nil (fuel : Nat) (m : Metadata) :
    parseValue (fuel + keyCost m.key + 10) (printMetadataJson m) =
      some (metadataToJson m, []) := by
  have h := parseValue_metadata fuel m []
  rwa [List.append_nil] at h

theorem jsonParse_metadata (m : Metadata) :
    jsonParse (printMetadataJson m) = some (metadataToJson m) := by
  rw [jsonParse]
  have hlen := printMetadataJson_length m
  rw [show (printMetadataJson m).length + 1 =
    ((printMetadataJson m).length + 1 - (keyCost m.key + 10)) + keyCost m.key + 10 from by
    omega]
  rw [parseValue_metadata_nil]
  simp [skipWs]

theorem mapM_jnumVal (ks : List Nat) : (ks.map Json.jnum).mapM jnumVal = some ks := by
  induction ks with
  | nil => rfl
  | cons k ks ih =>
    rw [List.map_cons, List.mapM_cons, ih]
    rfl

theorem metadataOfJson_metadataToJson (m : Metadata) :
    metadataOfJson (metadataToJson m) = some m := by
  cases m with
  | mk v f mt hp cc ts key =>
    cases key with
    | none => rfl
    | some ks =>
      simp only [metadataOfJson, metadataToJson, keyJsonVal]
      rw [mapM_jnumVal]
      simp

/-! ## Container slicing and scalar-validity lemmas (toward C1 and C6) -/

theorem escChar_mem (c : Nat) : ∀ d ∈ escChar c, d < 128 ∨ d = c := by
  intro d hd
  rw [escChar] at hd
  split_ifs at hd <;> simp at hd <;> omega

theorem printStr_scalars (s : List Nat) (h : ∀ c ∈ s, ScalarValue c) :
    ∀ d ∈ printStr s, ScalarValue d := by
  intro d hd
  rw [printStr] at hd
  rcases List.mem_cons.mp hd with rfl | hd2
  · exact ⟨by omega, by omega⟩
  rcases List.mem_append.mp hd2 with h3 | h3
  · obtain ⟨c, hc, hdc⟩ := List.mem_flatMap.mp h3
    rcases escChar_mem c d hdc with hlt | heq
    · exact ⟨by omega, by omega⟩
    · subst heq
      exact h _ hc
  · have h93 : d = 34 := by simpa using h3
    subst h93
    exact ⟨by omega, by omega⟩

theorem natToDigits_scalars (n : Nat) : ∀ d ∈ natToDigits n, ScalarValue d := by
  intro d hd
  have := natToDigits_digits n d hd
  exact ⟨by omega, by omega⟩

theorem printElems_scalars (ks : List Nat) : ∀ d ∈ printElems ks, ScalarValue d := by
  induction ks with
  | nil => intro d hd; simp [printElems] at hd
  | cons k ks ih =>
    cases ks with
    | nil =>
      intro d hd
      have := natToDigits_digits k d (by simpa [printElems] using hd)
      exact ⟨by omega, by omega⟩
    | cons k2 ks2 =>
      intro d hd
      rw [show printElems (k :: k2 :: ks2) = natToDigits k ++ 44 :: printElems (k2 :: ks2)
        from rfl] at hd
      rcases List.mem_append.mp hd with h1 | h1
      · have := natToDigits_digits k d h1
        exact ⟨by omega, by omega⟩
      · rcases List.mem_cons.mp h1 with rfl | h2
        · exact ⟨by omega, by omega⟩
        · exact ih d h2

theorem printKeyField_scalars (key : Option (List Nat)) :
    ∀ d ∈ printKeyField key, ScalarValue d := by
  cases key with
  | none => decide
  | some ks =>
    intro d hd
    rw [show printKeyField (some ks) = 91 :: printElems ks ++ [93] from rfl] at hd
    rcases List.mem_cons.mp hd with rfl | hd2
    · exact ⟨by omega, by omega⟩
    rcases List.mem_append.mp hd2 with h3 | h3
    · exact printElems_scalars ks d h3
    · have h93 : d = 93 := by simpa using h3
      subst h93
      exact ⟨by omega, by omega⟩

theorem printBool_scalars (b : Bool) : ∀ d ∈ printBool b, ScalarValue d := by
  cases b <;> decide

theorem printMetadataJson_scalars (m : Metadata)
    (hv : ∀ c ∈ m.version, ScalarValue c) (hf : ∀ c ∈ m.filename, ScalarValue c)
    (hmt : ∀ c ∈ m.mimeType, ScalarValue c) :
    ∀ d ∈ printMetadataJson m, ScalarValue d := by
  rw [printMetadataJson]
  simp only [List.forall_mem_append]
  repeat' apply And.intro
  all_goals first
    | decide
    | exact printStr_scalars _ hv
    | exact printStr_scalars _ hf
    | exact printStr_scalars _ hmt
    | exact printBool_scalars _
    | exact natToDigits_scalars _
    | exact printKeyField_scalars _

theorem utf8Encode_length_ge (s : List Nat) : s.length ≤ (utf8Encode s).length := by
  induction s with
  | nil => simp [utf8Encode]
  | cons c cs ih =>
    rw [utf8Encode, List.flatMap_cons]
    have h1 : 1 ≤ (utf8EncodeChar c).length := by
      rw [utf8EncodeChar]
      split_ifs <;> simp
    rw [utf8Encode] at ih
    simp only [List.length_append, List.length_cons]
    omega

theorem u32le_length (n : Nat) : (u32le n).length = 4 := rfl

theorem parseEncryptedFile_build (salt iv mb : List Nat) (chunks : List (List Nat)) (j : Json)
    (hsalt : salt.length = 16) (hiv : iv.length = 12)
    (hmb : 0 < mb.length) (hmlen : mb.length < 4294967296)
    (hjson : jsonParse (utf8Decode mb) = some j) :
    Decryptor.parseEncryptedFile (salt ++ iv ++ chunks.flatten ++ (mb ++ u32le mb.length)) =
      .ok { salt := salt, iv := iv, encryptedData := chunks.flatten, metadata := j } := by
  have hlen : (salt ++ iv ++ chunks.flatten ++ (mb ++ u32le mb.length)).length =
      32 + chunks.flatten.length + mb.length := by
    simp only [List.length_append, hsalt, hiv, u32le_length]
    omega
  have hdrop4 : (salt ++ iv ++ chunks.flatten ++ (mb ++ u32le mb.length)).drop
      ((salt ++ iv ++ chunks.flatten ++ (mb ++ u32le mb.length)).length - 4) =
      u32le mb.length := by
    rw [show (salt ++ iv ++ chunks.flatten ++ (mb ++ u32le mb.length)).length - 4 =
      (salt ++ iv ++ chunks.flatten ++ mb).length from by
        simp only [List.length_append, hsalt, hiv, u32le_length]
        omega]
    rw [show salt ++ iv ++ chunks.flatten ++ (mb ++ u32le mb.length) =
      (salt ++ iv ++ chunks.flatten ++ mb) ++ u32le mb.length from by
        simp [List.append_assoc]]
    exact List.drop_left _ _
  have hmetaLen :
      Decryptor.metaLen (salt ++ iv ++ chunks.flatten ++ (mb ++ u32le mb.length)) =
      mb.length := by
    rw [Decryptor.metaLen, hdrop4,
      show u32le mb.length = u32le mb.length ++ [] from (List.append_nil _).symm]
    exact readU32LE_u32le _ hmlen []
  have hmetaBytes :
      Decryptor.metaBytes (salt ++ iv ++ chunks.flatten ++ (mb ++ u32le mb.length)) = mb := by
    rw [Decryptor.metaBytes, hmetaLen]
    rw [show (salt ++ iv ++ chunks.flatten ++ (mb ++ u32le mb.length)).length - 4 -
      mb.length = (salt ++ iv ++ chunks.flatten).length from by
        simp only [List.length_append, hsalt, hiv, u32le_length]
        omega]
    rw [show salt ++ iv ++ chunks.flatten ++ (mb ++ u32le mb.length) =
      (salt ++ iv ++ chunks.flatten) ++ (mb ++ u32le mb.length) from by
        simp [List.append_assoc]]
    rw [List.drop_left]
    exact List.take_left _ _
  have htake16 :
      (salt ++ iv ++ chunks.flatten ++ (mb ++ u32le mb.length)).take 16 = salt := by
    rw [show salt ++ iv ++ chunks.flatten ++ (mb ++ u32le mb.length) =
      salt ++ (iv ++ (chunks.flatten ++ (mb ++ u32le mb.length))) from by
        simp [List.append_assoc]]
    rw [← hsalt]
    exact List.take_left _ _
  have hdrop16iv :
      ((salt ++ iv ++ chunks.flatten ++ (mb ++ u32le mb.length)).drop 16).take 12 = iv := by
    rw [show salt ++ iv ++ chunks.flatten ++ (mb ++ u32le mb.length) =
      salt ++ (iv ++ (chunks.flatten ++ (mb ++ u32le mb.length))) from by
        simp [List.append_assoc]]
    rw [← hsalt, List.drop_left, ← hiv]
    exact List.take_left _ _
  have hdrop28 :
      ((salt ++ iv ++ chunks.flatten ++ (mb ++ u32le mb.length)).drop 28).take
        chunks.flatten.length = chunks.flatten := by
    rw [show (28 : Nat) = (salt ++ iv).length from by simp [hsalt, hiv]]
    rw [show salt ++ iv ++ chunks.flatten ++ (mb ++ u32le mb.length) =
      (salt ++ iv) ++ (chunks.flatten ++ (mb ++ u32le mb.length)) from by
        simp [List.append_assoc]]
    rw [List.drop_left]
    exact List.take_left _ _
  simp only [Decryptor.parseEncryptedFile]
  rw [hmetaLen, hmetaBytes, hlen]
  rw [if_neg (by omega), if_neg (by omega), if_neg (by omega)]
  rw [hjson]
  rw [show 32 + chunks.flatten.length + mb.length - 4 - mb.length - 28 =
    chunks.flatten.length from by omega]
  rw [htake16, hdrop16iv, hdrop28]

/-- **C1**: Container round trip — for every 16-byte salt, 12-byte IV, list of
ciphertext chunks, and metadata record of the documented field types (its
string fields made of Unicode scalar values, its serialized form below the
32-bit length limit), `parseEncryptedFile` applied to
`buildEncryptedFile(salt, iv, chunks, serializeMetadata(metadata))` succeeds
and returns the same salt, the same IV, the concatenation of the chunks in
index order as the encrypted-data region, and a metadata value that decodes
back to exactly the input record. -/
theorem container_roundtrip (salt iv : List Nat) (chunks : List (List Nat)) (m : Metadata)
    (hsalt : salt.length = 16) (hiv : iv.length = 12)
    (hv : ∀ c ∈ m.version, ScalarValue c) (hf : ∀ c ∈ m.filename, ScalarValue c)
    (hmt : ∀ c ∈ m.mimeType, ScalarValue c)
    (hmlen : (utf8Encode (printMetadataJson m)).length < 4294967296) :
    Decryptor.parseEncryptedFile
        (Encryptor.buildEncryptedFile salt iv chunks (Encryptor.serializeMetadata m)) =
      .ok { salt := salt, iv := iv, encryptedData := chunks.flatten,
            metadata := metadataToJson m } ∧
    metadataOfJson (metadataToJson m) = some m := by
  refine ⟨?_, metadataOfJson_metadataToJson m⟩
  have hshape : Encryptor.buildEncryptedFile salt iv chunks (Encryptor.serializeMetadata m) =
      salt ++ iv ++ chunks.flatten ++ (utf8Encode (printMetadataJson m) ++
        u32le (utf8Encode (printMetadataJson m)).length) := by
    simp [Encryptor.buildEncryptedFile, Encryptor.serializeMetadata, List.append_assoc]
  rw [hshape]
  refine parseEncryptedFile_build _ _ _ _ _ hsalt hiv ?_ hmlen ?_
  · have h1 := printMetadataJson_length m
    have h2 := utf8Encode_length_ge (printMetadataJson m)
    omega
  · rw [utf8Decode_utf8Encode _ (printMetadataJson_scalars m hv hf hmt), jsonParse_metadata]

/-- Witness for `container_roundtrip`: a concrete 16-byte salt, 12-byte IV,
two ciphertext chunks and a full metadata record (password-protected, with
an embedded key) round-trip through the container. -/
theorem container_roundtrip_witness :
    ((List.replicate 16 7 : List Nat).length = 16 ∧
     (List.replicate 12 3 : List Nat).length = 12 ∧
     (∀ c ∈ ([49] : List Nat), ScalarValue c) ∧
     (∀ c ∈ ([97, 46, 116] : List Nat), ScalarValue c) ∧
     (∀ c ∈ ([116, 101, 120, 116] : List Nat), ScalarValue c) ∧
     (utf8Encode (printMetadataJson
       ⟨[49], [97, 46, 116], [116, 101, 120, 116], true, 2, 5, some [9, 200]⟩)).length <
       4294967296) ∧
    (Decryptor.parseEncryptedFile
        (Encryptor.buildEncryptedFile (List.replicate 16 7) (List.replicate 12 3)
          [[1, 2], [3]]
          (Encryptor.serializeMetadata
            ⟨[49], [97, 46, 116], [116, 101, 120, 116], true, 2, 5, some [9, 200]⟩)) =
      .ok { salt := List.replicate 16 7, iv := List.replicate 12 3,
            encryptedData := [[1, 2], [3]].flatten,
            metadata := metadataToJson
              ⟨[49], [97, 46, 116], [116, 101, 120, 116], true, 2, 5, some [9, 200]⟩ } ∧
     metadataOfJson (metadataToJson
         ⟨[49], [97, 46, 116], [116, 101, 120, 116], true, 2, 5, some [9, 200]⟩) =
       some ⟨[49], [97, 46, 116], [116, 101, 120, 116], true, 2, 5, some [9, 200]⟩) :=
  ⟨⟨by decide, by decide, by decide, by decide, by decide, by decide⟩,
   container_roundtrip (List.replicate 16 7) (List.replicate 12 3) [[1, 2], [3]]
     ⟨[49], [97, 46, 116], [116, 101, 120, 116], true, 2, 5, some [9, 200]⟩
     (by decide) (by decide) (by decide) (by decide) (by decide) (by decide)⟩

/-- **C6** counterexample: a 33-byte container — shorter than the 32 + 4 = 36
byte minimum the claim derives from the spec's layout invariant — is accepted
by `parseEncryptedFile`, because the code only requires `data.length >= 32`
and a 1-byte metadata record then fits. -/
theorem parse_accepts_33_byte_container :
    (Decryptor.parseEncryptedFile
      (List.replicate 28 0 ++ [49, 1, 0, 0, 0])).isOk = true ∧
    (List.replicate 28 0 ++ [49, 1, 0, 0, 0]).length < 32 + 4 := by
  decide

/-- **C6** amended: `parseEncryptedFile data` succeeds iff `data.length ≥ 32`
(not 36), the trailing little-endian 32-bit metadata length `L` satisfies
`1 ≤ L ≤ data.length - 32`, and the metadata slice decodes and parses as
JSON; on every violation it fails with a `FormatError` string.  (The
start-offset-below-28 case is unreachable: `L ≤ data.length - 32` already
forces `metadataStart = data.length - 4 - L ≥ 28`.) -/
theorem parse_validation_amended (data : List Nat) :
    (Decryptor.parseEncryptedFile data).isOk = true ↔
      (32 ≤ data.length ∧ 1 ≤ Decryptor.metaLen data ∧
        Decryptor.metaLen data ≤ data.length - 32 ∧
        (jsonParse (utf8Decode (Decryptor.metaBytes data))).isSome = true) := by
  simp only [Decryptor.parseEncryptedFile]
  by_cases h1 : data.length < 28 + 4
  · rw [if_pos h1]
    constructor
    · intro habs
      simp [Except.isOk, Except.toBool] at habs
    · rintro ⟨ha, -⟩
      omega
  · rw [if_neg h1]
    by_cases h2 : Decryptor.metaLen data = 0 ∨ data.length - 32 < Decryptor.metaLen data
    · rw [if_pos h2]
      constructor
      · intro habs
        simp [Except.isOk, Except.toBool] at habs
      · rintro ⟨-, hb, hc, -⟩
        omega
    · rw [if_neg h2]
      have h3 : ¬ data.length - 4 - Decryptor.metaLen data < 28 := by omega
      rw [if_neg h3]
      cases hj : jsonParse (utf8Decode (Decryptor.metaBytes data)) with
      | none =>
        constructor
        · intro habs
          simp [Except.isOk, Except.toBool] at habs
        · rintro ⟨-, -, -, hd⟩
          simp at hd
      | some v =>
        constructor
        · intro _
          exact ⟨by omega, by omega, by omega, rfl⟩
        · intro _
          rfl
